import Mathlib

/-!
Verification of the CIDR consolidation core of `spamhaus_ripe.py`
(repository 32u-nd/Spamhaus-DROP).

The script's algorithmic core is `consolidate_ip_ranges`, which

  * parses each textual token with Python's `ipaddress.ip_network`
    (with its default `strict=True`, so tokens with host bits set are
    rejected with a `ValueError` and skipped by the surrounding
    `try`/`except`),
  * partitions the resulting typed networks by address family, and
  * merges each family with `ipaddress.collapse_addresses`, stringifying
    the result.

Tokens are embedded as `List Char` (the character data of the Python
strings); machine integers are `Nat` with explicit bounds (`2 ^ 32`,
`2 ^ 128`).  Fallible parsing returns `Except String`, mirroring
`ValueError`.  All definitions are executable so that concrete runs can
be checked by `decide`.
-/

/-- Split a character list at every occurrence of the separator `c`.
Mirrors Python's `str.split(sep)`: empty fields are kept, and splitting
the empty string yields one empty field. -/
def splitOnC (c : Char) : List Char → List (List Char)
  | [] => [[]]
  | x :: xs =>
    if x = c then [] :: splitOnC c xs
    else
      match splitOnC c xs with
      | [] => [[x]]
      | h :: t => (x :: h) :: t

/-- Join a list of fields with the separator `c` between consecutive
fields (Python's `sep.join`). -/
def joinC (c : Char) : List (List Char) → List Char
  | [] => []
  | [x] => x
  | x :: y :: xs => x ++ c :: joinC c (y :: xs)

/-- Numeric value of an ASCII decimal digit character. -/
def decDigit (ch : Char) : Nat := ch.toNat - 48

/-- Value of a list of decimal digit characters (most significant first). -/
def decVal (cs : List Char) : Nat := cs.foldl (fun acc ch => acc * 10 + decDigit ch) 0

/-- Numeric value of a hexadecimal digit character, if it is one
(`0-9`, `a-f`, `A-F`). -/
def hexDigit? (ch : Char) : Option Nat :=
  if '0' ≤ ch ∧ ch ≤ '9' then some (ch.toNat - 48)
  else if 'a' ≤ ch ∧ ch ≤ 'f' then some (ch.toNat - 87)
  else if 'A' ≤ ch ∧ ch ≤ 'F' then some (ch.toNat - 55)
  else none

/-- Value of a list of hexadecimal digit characters (most significant first). -/
def hexVal (cs : List Char) : Nat :=
  cs.foldl (fun acc ch => acc * 16 + (hexDigit? ch).getD 0) 0

/-- Decimal digit character for a value `< 10`. -/
def decCh (d : Nat) : Char := Char.ofNat (48 + d)

/-- Lowercase hexadecimal digit character for a value `< 16`
(Python's `'%x'` formatting). -/
def hexCh (d : Nat) : Char := if d < 10 then Char.ofNat (48 + d) else Char.ofNat (87 + d)

/-- Decimal rendering of a natural number, most significant digit
first, no leading zeros (`str(n)` in Python).  The first argument is
structural fuel; it is adequate as soon as it exceeds the number. -/
def natToDecAux : Nat → Nat → List Char
  | 0, _ => []
  | fuel + 1, n => if n < 10 then [decCh n] else natToDecAux fuel (n / 10) ++ [decCh (n % 10)]

/-- Decimal rendering of a natural number (no leading zeros). -/
def natToDec (n : Nat) : List Char := natToDecAux (n + 1) n

/-- Lowercase hexadecimal rendering of a natural number, no leading
zeros (Python's `'%x' % n`). -/
def natToHexAux : Nat → Nat → List Char
  | 0, _ => []
  | fuel + 1, n => if n < 16 then [hexCh n] else natToHexAux fuel (n / 16) ++ [hexCh (n % 16)]

/-- Lowercase hexadecimal rendering of a natural number. -/
def natToHex (n : Nat) : List Char := natToHexAux (n + 1) n

/-- Big-endian base-`base` chunks of a number: `toChunks base n a` is
the list of the `n` base-`base` digits of `a mod base^n`, most
significant first. -/
def toChunks (base : Nat) : Nat → Nat → List Nat
  | 0, _ => []
  | n + 1, a => toChunks base n (a / base) ++ [a % base]

/-- Recombine big-endian base-`base` chunks into a number. -/
def fromChunks (base : Nat) (l : List Nat) : Nat :=
  l.foldl (fun acc x => acc * base + x) 0

/-- A typed network value: address family version (4 or 6), base
address, and prefix length.  This is the data carried by Python's
`IPv4Network`/`IPv6Network` objects as used by the script. -/
structure Net where
  version : Nat
  addr : Nat
  plen : Nat
deriving DecidableEq, Repr

/-- Bit width of an address family (32 for IPv4, 128 for IPv6). -/
def famWidth (v : Nat) : Nat := if v = 4 then 32 else 128

/-- Number of addresses covered by a network. -/
def Net.size (n : Net) : Nat := 2 ^ (famWidth n.version - n.plen)

/-- Last address covered by a network. -/
def Net.last (n : Net) : Nat := n.addr + n.size - 1

/-- A network value is well formed when its prefix length fits the
family width, its address range stays inside the address space, and its
address is the canonical base (host bits all zero). -/
def Net.Valid (n : Net) : Prop :=
  n.plen ≤ famWidth n.version ∧
  n.addr + n.size ≤ 2 ^ famWidth n.version ∧
  n.addr % n.size = 0

instance (n : Net) : Decidable n.Valid := by unfold Net.Valid; infer_instance

/-- A network covers an address. -/
def Net.covers (n : Net) (a : Nat) : Prop := n.addr ≤ a ∧ a ≤ n.last

instance (n : Net) (a : Nat) : Decidable (n.covers a) := by
  unfold Net.covers; infer_instance

/-- An address belongs to the union of the address ranges of a list of
networks. -/
def memUnion (l : List Net) (a : Nat) : Prop := ∃ n ∈ l, n.covers a

instance (l : List Net) (a : Nat) : Decidable (memUnion l a) := by
  unfold memUnion; infer_instance

/-- Parse one dotted-quad octet, mirroring `IPv4Address._parse_octet`
of the Python standard library: non-empty, ASCII decimal digits only,
at most three characters, no leading zero (except `"0"` itself), value
at most 255. -/
def parseOctet (cs : List Char) : Except String Nat :=
  if cs = [] then .error "Empty octet not permitted"
  else if ¬ cs.all (·.isDigit) then .error "Only decimal digits permitted"
  else if 3 < cs.length then .error "At most 3 characters permitted"
  else if cs ≠ ['0'] ∧ cs.head? = some '0' then .error "Leading zeros are not permitted"
  else if 255 < decVal cs then .error "Octet not permitted"
  else .ok (decVal cs)

/-- Parse a dotted-quad IPv4 address to its 32-bit integer value,
mirroring `IPv4Address._ip_int_from_string`: exactly four octets. -/
def v4AddrInt (cs : List Char) : Except String Nat :=
  match splitOnC '.' cs with
  | [a, b, c, d] => do
    let oa ← parseOctet a
    let ob ← parseOctet b
    let oc ← parseOctet c
    let od ← parseOctet d
    .ok (fromChunks 256 [oa, ob, oc, od])
  | _ => .error "Expected 4 octets"

/-- Parse a prefix length given as a decimal string, mirroring
`_prefix_from_prefix_string`: ASCII digits only, value between 0 and
the family width. -/
def parsePlen (w : Nat) (cs : List Char) : Except String Nat :=
  if cs = [] then .error "empty"
  else if ¬ cs.all (·.isDigit) then .error "only digits permitted"
  else if w < decVal cs then .error "out of range"
  else .ok (decVal cs)

/-- Split an `addr/plen` token at `/`, mirroring `_split_addr_prefix`:
at most one slash; a bare address gets the full family width. -/
def splitAddrPlen (w : Nat) (cs : List Char) : Except String (List Char × List Char) :=
  match splitOnC '/' cs with
  | [a] => .ok (a, natToDec w)
  | [a, p] => .ok (a, p)
  | _ => .error "Only one slash permitted"

/-- Parse one hextet of an IPv6 address, mirroring
`IPv6Address._parse_hextet`: hex digits only, at most four characters,
non-empty. -/
def parseHextet (cs : List Char) : Except String Nat :=
  if ¬ cs.all (fun ch => (hexDigit? ch).isSome) then .error "Only hex digits permitted"
  else if 4 < cs.length then .error "At most 4 characters permitted"
  else if cs = [] then .error "empty hextet"
  else .ok (hexVal cs)

/-- Fold a list of hextet fields into an accumulated integer value
(each step mirrors `ip_int <<= 16; ip_int |= parse_hextet(...)`). -/
def foldHextets (parts : List (List Char)) (acc : Nat) : Except String Nat :=
  match parts with
  | [] => .ok acc
  | p :: rest => do
    let h ← parseHextet p
    foldHextets rest (acc * 65536 + h)

/-- Hextet-level part of IPv6 address parsing (after the optional
IPv4-suffix rewrite of `_ip_int_from_string`): at most one `::` (an
empty middle field), leading/trailing lone `:` rejected, exactly eight
hextets when no `::` is present. -/
def v6FromParts (parts : List (List Char)) : Except String Nat :=
  if 9 < parts.length then .error "At most 9 parts expected"
  else
    let middle := (parts.drop 1).dropLast
    if 2 ≤ (middle.filter (· = [])).length then .error "At most one double colon permitted"
    else
      match middle.findIdx? (· = []) with
      | some i =>
        let si := i + 1
        let lo0 := parts.length - si - 1
        let hiE : Except String Nat :=
          if parts.headD [] = [] then
            if si - 1 ≠ 0 then .error "Leading colon only permitted as part of double colon"
            else .ok 0
          else .ok si
        let loE : Except String Nat :=
          if parts.getLastD [] = [] then
            if lo0 - 1 ≠ 0 then .error "Trailing colon only permitted as part of double colon"
            else .ok 0
          else .ok lo0
        do
          let hi ← hiE
          let lo ← loE
          if 8 - (hi + lo) < 1 then
            .error "Expected at most 7 other parts with a double colon"
          else do
            let hiVal ← foldHextets (parts.take hi) 0
            let loVal ← foldHextets (parts.drop (parts.length - lo)) 0
            .ok (hiVal * 65536 ^ ((8 - (hi + lo)) + lo) + loVal)
      | none =>
        if parts.length ≠ 8 then .error "Exactly 8 parts expected"
        else if parts.headD [] = [] then
          .error "Leading colon only permitted as part of double colon"
        else if parts.getLastD [] = [] then
          .error "Trailing colon only permitted as part of double colon"
        else foldHextets parts 0

/-- Parse an IPv6 address to its 128-bit integer value, mirroring
`IPv6Address._ip_int_from_string`: split on `:`, rewrite an optional
trailing dotted-quad IPv4 suffix into two hextets, then parse the
hextet fields. -/
def v6AddrInt (cs : List Char) : Except String Nat :=
  let parts0 := splitOnC ':' cs
  if parts0.length < 3 then .error "At least 3 parts expected"
  else
    match parts0.getLast? with
    | some lastPart =>
      if '.' ∈ lastPart then
        match v4AddrInt lastPart with
        | .ok v4 =>
          v6FromParts (parts0.dropLast ++ [natToHex (v4 / 65536), natToHex (v4 % 65536)])
        | .error e => .error e
      else v6FromParts parts0
    | none => v6FromParts parts0

/-- Model of Python's `IPv4Network(token)` constructor with its default
`strict=True`: parse address and prefix length, then reject the token
with an error when any host bit is set (no canonicalization). -/
def IPv4NetworkOf (cs : List Char) : Except String Net := do
  let (a, p) ← splitAddrPlen 32 cs
  let addr ← v4AddrInt a
  let plen ← parsePlen 32 p
  if addr % 2 ^ (32 - plen) ≠ 0 then .error "has host bits set"
  else .ok ⟨4, addr, plen⟩

/-- Model of Python's `IPv6Network(token)` constructor with its default
`strict=True`. -/
def IPv6NetworkOf (cs : List Char) : Except String Net := do
  let (a, p) ← splitAddrPlen 128 cs
  let addr ← v6AddrInt a
  let plen ← parsePlen 128 p
  if addr % 2 ^ (128 - plen) ≠ 0 then .error "has host bits set"
  else .ok ⟨6, addr, plen⟩

/-- Model of `ipaddress.ip_network(token)` as called by
`consolidate_ip_ranges` (default `strict=True`): try IPv4, then IPv6,
otherwise fail with `ValueError`. -/
def ip_network (cs : List Char) : Except String Net :=
  match IPv4NetworkOf cs with
  | .ok n => .ok n
  | .error _ =>
    match IPv6NetworkOf cs with
    | .ok n => .ok n
    | .error _ => .error "does not appear to be an IPv4 or IPv6 network"

/-- Scan for the best (longest, leftmost) run of `"0"` fields, mirroring
the loop of `_compress_hextets`: `idx` is the index of the next field,
`cs`/`cl` the start and length of the current run of zeros, `bs`/`bl`
the best run found so far. -/
def bestRunGo : List (List Char) → Nat → Nat → Nat → Nat → Nat → Nat × Nat
  | [], _, _, _, bs, bl => (bs, bl)
  | p :: rest, idx, cs, cl, bs, bl =>
    if p = ['0'] then
      let cs' := if cl = 0 then idx else cs
      let cl' := cl + 1
      if bl < cl' then bestRunGo rest (idx + 1) cs' cl' cs' cl'
      else bestRunGo rest (idx + 1) cs' cl' bs bl
    else bestRunGo rest (idx + 1) 0 0 bs bl

/-- Best run of `"0"` fields of a hextet list (start, length). -/
def bestRun (parts : List (List Char)) : Nat × Nat := bestRunGo parts 0 0 0 0 0

/-- Replace the best run of zero fields (when longer than one) by an
empty field, mirroring `IPv6Address._compress_hextets`; joining the
result with `:` yields the `::`-compressed textual form. -/
def compressHextets (parts : List (List Char)) : List (List Char) :=
  let bsl := bestRun parts
  if 1 < bsl.2 then
    let hx := if bsl.1 + bsl.2 = parts.length then parts ++ [[]] else parts
    let rep := hx.take bsl.1 ++ [[]] ++ hx.drop (bsl.1 + bsl.2)
    if bsl.1 = 0 then [] :: rep else rep
  else parts

/-- Compressed textual form of a 128-bit IPv6 address, mirroring
`IPv6Address._string_from_ip_int`. -/
def v6AddrChars (addr : Nat) : List Char :=
  joinC ':' (compressHextets ((toChunks 65536 8 addr).map natToHex))

/-- Dotted-quad textual form of a 32-bit IPv4 address. -/
def v4AddrChars (addr : Nat) : List Char :=
  joinC '.' ((toChunks 256 4 addr).map natToDec)

/-- Characters of `str(network)` in Python: address in its canonical
textual form, a slash, and the decimal prefix length. -/
def netChars (n : Net) : List Char :=
  (if n.version = 4 then v4AddrChars n.addr else v6AddrChars n.addr) ++ '/' :: natToDec n.plen

/-- `str(network)` as used by `consolidate_ip_ranges` when building its
result lists. -/
def netString (n : Net) : String := String.mk (netChars n)

/-- Modelled from the spec: step 1 of the aggregation algorithm of
§4.2 (the repository calls the library routine
`ipaddress.collapse_addresses`, whose code is not part of the
repository).  Discard networks fully contained in a larger network
already present; duplicate identical networks are subsumed and kept
once. -/
def collapse1 (l : List Net) : List Net :=
  let d := l.dedup
  d.filter fun b =>
    ! d.any fun a => decide (a ≠ b) && decide (a.addr ≤ b.addr) && decide (b.last ≤ a.last)

/-- Sort order of step 2 of §4.2: base address ascending, ties broken
by prefix length ascending. -/
def netLe (a b : Net) : Prop := a.addr < b.addr ∨ (a.addr = b.addr ∧ a.plen ≤ b.plen)

instance : DecidableRel netLe := fun a b => by unfold netLe; infer_instance

/-- Modelled from the spec: the left-to-right sweep of step 3 of §4.2,
merging overlapping or directly adjacent ranges (`next.address ≤
current.lastAddress + 1`) into maximal contiguous intervals with bounds
`[min(address), max(lastAddress)]`. -/
def sweepGo : Nat × Nat → List (Nat × Nat) → List (Nat × Nat)
  | cur, [] => [cur]
  | (s, e), (s', e') :: rest =>
    if s' ≤ e + 1 then sweepGo (min s s', max e e') rest
    else (s, e) :: sweepGo (s', e') rest

/-- Merge a sorted list of address intervals into maximal contiguous
intervals (step 3 of §4.2). -/
def sweep : List (Nat × Nat) → List (Nat × Nat)
  | [] => []
  | p :: rest => sweepGo p rest

/-- Largest `k ≤ j` such that `2^k` divides `s` (every address is
aligned to `2^0`). -/
def alignOf : Nat → Nat → Nat
  | 0, _ => 0
  | j + 1, s => if s % 2 ^ (j + 1) = 0 then j + 1 else alignOf j s

/-- Largest `k ≤ j` such that `2^k ≤ len` (for `len ≥ 1`). -/
def maxKOf : Nat → Nat → Nat
  | 0, _ => 0
  | j + 1, len => if 2 ^ (j + 1) ≤ len then j + 1 else maxKOf j len

/-- Modelled from the spec: the greedy interval-to-CIDR packing loop of
step 4 of §4.2: while `start ≤ end`, emit the largest block `2^k` with
`start` aligned to `2^k` and `start + 2^k - 1 ≤ end`, then advance.
The first argument is structural fuel, adequate from `e + 1 - s` on. -/
def packGo (v w : Nat) : Nat → Nat → Nat → List Net
  | 0, _, _ => []
  | fuel + 1, s, e =>
    if s ≤ e then
      let k := min (alignOf w s) (maxKOf w (e + 1 - s))
      ⟨v, s, w - k⟩ :: packGo v w fuel (s + 2 ^ k) e
    else []

/-- Greedy minimal CIDR packing of the interval `[s, e]` (step 4 of
§4.2) for family `v` of width `w`. -/
def packIv (v w s e : Nat) : List Net := packGo v w (e + 1 - s) s e

/-- Modelled from the spec: `ipaddress.collapse_addresses` (whose code
is not part of the repository) as specified by the §4.2 aggregation
algorithm: discard subsumed networks, sort, sweep into maximal
contiguous intervals, pack each interval greedily into minimal CIDR
blocks, and concatenate. -/
def collapse_addresses (v : Nat) (nets : List Net) : List Net :=
  let kept := List.insertionSort netLe (collapse1 nets)
  ((sweep (kept.map fun n => (n.addr, n.last))).map fun p => packIv v (famWidth v) p.1 p.2).flatten

/-- The consolidation core of `spamhaus_ripe.py`: parse every token
with `ip_network` (skipping tokens that raise `ValueError`), partition
by address family, collapse each family, and return the two lists of
canonical CIDR strings. -/
def consolidate_ip_ranges (ip_ranges : List String) : List (List String) :=
  let ipv4_ranges := ip_ranges.filterMap fun ip =>
    match ip_network ip.data with
    | .ok network => if network.version = 4 then some network else none
    | .error _ => none
  let ipv6_ranges := ip_ranges.filterMap fun ip =>
    match ip_network ip.data with
    | .ok network => if network.version = 4 then none
      else if network.version = 6 then some network else none
    | .error _ => none
  [(collapse_addresses 4 ipv4_ranges).map netString,
   (collapse_addresses 6 ipv6_ranges).map netString]

/-! ### Splitting and joining -/

theorem splitOnC_ne_nil (c : Char) (l : List Char) : splitOnC c l ≠ [] := by
  induction l with
  | nil => simp [splitOnC]
  | cons x xs ih =>
    simp only [splitOnC]
    split
    · simp
    · split
      · simp
      · simp

theorem splitOnC_of_not_mem {c : Char} {l : List Char} (h : c ∉ l) :
    splitOnC c l = [l] := by
  induction l with
  | nil => rfl
  | cons x xs ih =>
    simp only [List.mem_cons, not_or] at h
    simp only [splitOnC]
    rw [if_neg (Ne.symm h.1), ih h.2]

theorem splitOnC_append {c : Char} {p rest : List Char} (h : c ∉ p) :
    splitOnC c (p ++ c :: rest) = p :: splitOnC c rest := by
  induction p with
  | nil => simp [splitOnC]
  | cons x xs ih =>
    simp only [List.mem_cons, not_or] at h
    simp only [List.cons_append, splitOnC]
    rw [if_neg (Ne.symm h.1)]
    simp only [List.append_eq]
    rw [ih h.2]

theorem splitOnC_joinC {c : Char} {parts : List (List Char)} (hne : parts ≠ [])
    (h : ∀ p ∈ parts, c ∉ p) : splitOnC c (joinC c parts) = parts := by
  induction parts with
  | nil => exact absurd rfl hne
  | cons p ps ih =>
    match ps with
    | [] => exact splitOnC_of_not_mem (h p (by simp))
    | q :: qs =>
      have h1 : c ∉ p := h p (by simp)
      have h2 : ∀ r ∈ q :: qs, c ∉ r := fun r hr => h r (List.mem_cons_of_mem _ hr)
      simp only [joinC]
      rw [splitOnC_append h1, ih (by simp) h2]

/-! ### Decimal and hexadecimal digits -/

theorem decCh_toNat {d : Nat} (hd : d < 10) : (decCh d).toNat = 48 + d := by
  interval_cases d <;> rfl

theorem decCh_isDigit {d : Nat} (hd : d < 10) : (decCh d).isDigit = true := by
  interval_cases d <;> rfl

theorem decDigit_decCh {d : Nat} (hd : d < 10) : decDigit (decCh d) = d := by
  interval_cases d <;> rfl

theorem isDigit_ne_sep {ch : Char} (h : ch.isDigit = true) :
    ch ≠ '.' ∧ ch ≠ ':' ∧ ch ≠ '/' := by
  simp only [Char.isDigit] at h
  refine ⟨?_, ?_, ?_⟩ <;> · rintro rfl; simp_all

theorem decVal_append_digit (l : List Char) (ch : Char) :
    decVal (l ++ [ch]) = decVal l * 10 + decDigit ch := by
  simp [decVal, List.foldl_append]

theorem natToDecAux_ne_nil {fuel n : Nat} (h : n < fuel) : natToDecAux fuel n ≠ [] := by
  match fuel with
  | f + 1 =>
    simp only [natToDecAux]
    split
    · simp
    · simp

theorem natToDecAux_digits {fuel n : Nat} (h : n < fuel) :
    ∀ ch ∈ natToDecAux fuel n, ch.isDigit = true := by
  induction fuel generalizing n with
  | zero => omega
  | succ f ih =>
    intro ch hch
    simp only [natToDecAux] at hch
    split at hch
    · simp only [List.mem_singleton] at hch
      subst hch
      exact decCh_isDigit (by omega)
    · rename_i hn
      rcases List.mem_append.mp hch with hl | hr
      · exact ih (by omega) ch hl
      · simp only [List.mem_singleton] at hr
        subst hr
        exact decCh_isDigit (by omega)

theorem decVal_natToDecAux {fuel n : Nat} (h : n < fuel) :
    decVal (natToDecAux fuel n) = n := by
  induction fuel generalizing n with
  | zero => omega
  | succ f ih =>
    simp only [natToDecAux]
    split
    · rename_i hn
      simp [decVal, decDigit_decCh hn]
    · rename_i hn
      rw [decVal_append_digit, ih (by omega), decDigit_decCh (by omega)]
      omega

theorem decVal_natToDec (n : Nat) : decVal (natToDec n) = n :=
  decVal_natToDecAux (Nat.lt_succ_self n)

theorem natToDec_digits (n : Nat) : ∀ ch ∈ natToDec n, ch.isDigit = true :=
  natToDecAux_digits (Nat.lt_succ_self n)

theorem natToDec_ne_nil (n : Nat) : natToDec n ≠ [] :=
  natToDecAux_ne_nil (Nat.lt_succ_self n)

theorem natToDecAux_length {fuel n k : Nat} (h : n < fuel) (hk : n < 10 ^ (k + 1)) :
    (natToDecAux fuel n).length ≤ k + 1 := by
  induction fuel generalizing n k with
  | zero => omega
  | succ f ih =>
    simp only [natToDecAux]
    split
    · simp
    · rename_i hn
      have hk1 : 1 ≤ k := by
        by_contra hc
        have : k = 0 := by omega
        subst this
        simp at hk
        omega
      have hdiv : n / 10 < 10 ^ ((k - 1) + 1) := by
        have h1 : n / 10 < 10 ^ k := by
          rw [Nat.div_lt_iff_lt_mul (by norm_num : 0 < 10)]
          have : 10 ^ (k + 1) = 10 ^ k * 10 := by rw [pow_succ]
          omega
        have hkk : (k - 1) + 1 = k := by omega
        rw [hkk]
        exact h1
      have hlen := ih (n := n / 10) (k := k - 1) (by omega) hdiv
      simp only [List.length_append, List.length_singleton]
      omega

theorem natToDec_length {n k : Nat} (hk : n < 10 ^ (k + 1)) :
    (natToDec n).length ≤ k + 1 :=
  natToDecAux_length (Nat.lt_succ_self n) hk

theorem natToDecAux_head {fuel n : Nat} (h : n < fuel) (hn : n ≠ 0) :
    (natToDecAux fuel n).head? ≠ some '0' := by
  induction fuel generalizing n with
  | zero => omega
  | succ f ih =>
    simp only [natToDecAux]
    split
    · rename_i h10
      simp only [List.head?_cons]
      intro hc
      have := congrArg Char.toNat (Option.some_injective _ hc)
      rw [decCh_toNat (by omega)] at this
      simp only [show ('0').toNat = 48 from rfl] at this
      omega
    · rename_i h10
      cases hl : natToDecAux f (n / 10) with
      | nil => exact absurd hl (natToDecAux_ne_nil (by omega))
      | cons a as =>
        have hih := ih (n := n / 10) (by omega) (by omega)
        rw [hl] at hih
        simpa using hih

theorem isDigit_toNat {ch : Char} (h : ch.isDigit = true) :
    48 ≤ ch.toNat ∧ ch.toNat ≤ 57 := by
  revert h
  unfold Char.isDigit
  intro h
  rw [Bool.and_eq_true, decide_eq_true_eq, decide_eq_true_eq] at h
  exact ⟨h.1, h.2⟩

theorem hexCh_cases {d : Nat} (hd : d < 16) :
    hexDigit? (hexCh d) = some d ∧
    (97 ≤ (hexCh d).toNat ∨ 48 ≤ (hexCh d).toNat ∧ (hexCh d).toNat ≤ 57) := by
  interval_cases d <;> exact ⟨rfl, by decide⟩

theorem hexDigit?_hexCh {d : Nat} (hd : d < 16) : hexDigit? (hexCh d) = some d :=
  (hexCh_cases hd).1

theorem isHex_toNat {ch : Char} (h : (hexDigit? ch).isSome = true) :
    (48 ≤ ch.toNat ∧ ch.toNat ≤ 57) ∨ (97 ≤ ch.toNat ∧ ch.toNat ≤ 102) ∨
    (65 ≤ ch.toNat ∧ ch.toNat ≤ 70) := by
  unfold hexDigit? at h
  split_ifs at h with h1 h2 h3
  · rw [Char.le_def, Char.le_def] at h1
    exact Or.inl ⟨h1.1, h1.2⟩
  · rw [Char.le_def, Char.le_def] at h2
    exact Or.inr (Or.inl ⟨h2.1, h2.2⟩)
  · rw [Char.le_def, Char.le_def] at h3
    exact Or.inr (Or.inr ⟨h3.1, h3.2⟩)
  · simp at h

theorem isHex_ne_sep {ch : Char} (h : (hexDigit? ch).isSome = true) :
    ch ≠ ':' ∧ ch ≠ '/' ∧ ch ≠ '.' := by
  have hr := isHex_toNat h
  refine ⟨?_, ?_, ?_⟩ <;>
    · rintro rfl
      exact absurd hr (by decide)

theorem hexVal_append_digit (l : List Char) (ch : Char) :
    hexVal (l ++ [ch]) = hexVal l * 16 + (hexDigit? ch).getD 0 := by
  simp [hexVal, List.foldl_append]

theorem natToHexAux_ne_nil {fuel n : Nat} (h : n < fuel) : natToHexAux fuel n ≠ [] := by
  match fuel with
  | f + 1 =>
    simp only [natToHexAux]
    split
    · simp
    · simp

theorem natToHexAux_hex {fuel n : Nat} (h : n < fuel) :
    ∀ ch ∈ natToHexAux fuel n, (hexDigit? ch).isSome = true := by
  induction fuel generalizing n with
  | zero => omega
  | succ f ih =>
    intro ch hch
    simp only [natToHexAux] at hch
    split at hch
    · rename_i hn
      simp only [List.mem_singleton] at hch
      subst hch
      rw [hexDigit?_hexCh (by omega)]
      rfl
    · rename_i hn
      rcases List.mem_append.mp hch with hl | hr
      · exact ih (by omega) ch hl
      · simp only [List.mem_singleton] at hr
        subst hr
        rw [hexDigit?_hexCh (by omega)]
        rfl

theorem hexVal_natToHexAux {fuel n : Nat} (h : n < fuel) :
    hexVal (natToHexAux fuel n) = n := by
  induction fuel generalizing n with
  | zero => omega
  | succ f ih =>
    simp only [natToHexAux]
    split
    · rename_i hn
      simp [hexVal, hexDigit?_hexCh hn]
    · rename_i hn
      rw [hexVal_append_digit, ih (by omega), hexDigit?_hexCh (by omega)]
      simp only [Option.getD_some]
      omega

theorem hexVal_natToHex (n : Nat) : hexVal (natToHex n) = n :=
  hexVal_natToHexAux (Nat.lt_succ_self n)

theorem natToHex_ne_nil (n : Nat) : natToHex n ≠ [] :=
  natToHexAux_ne_nil (Nat.lt_succ_self n)

theorem natToHex_hex (n : Nat) : ∀ ch ∈ natToHex n, (hexDigit? ch).isSome = true :=
  natToHexAux_hex (Nat.lt_succ_self n)

theorem natToHexAux_length {fuel n k : Nat} (h : n < fuel) (hk : n < 16 ^ (k + 1)) :
    (natToHexAux fuel n).length ≤ k + 1 := by
  induction fuel generalizing n k with
  | zero => omega
  | succ f ih =>
    simp only [natToHexAux]
    split
    · simp
    · rename_i hn
      have hk1 : 1 ≤ k := by
        by_contra hc
        have : k = 0 := by omega
        subst this
        simp at hk
        omega
      have hdiv : n / 16 < 16 ^ ((k - 1) + 1) := by
        have h1 : n / 16 < 16 ^ k := by
          rw [Nat.div_lt_iff_lt_mul (by norm_num : 0 < 16)]
          have : 16 ^ (k + 1) = 16 ^ k * 16 := by rw [pow_succ]
          omega
        have hkk : (k - 1) + 1 = k := by omega
        rw [hkk]
        exact h1
      have hlen := ih (n := n / 16) (k := k - 1) (by omega) hdiv
      simp only [List.length_append, List.length_singleton]
      omega

theorem natToHex_length {n k : Nat} (hk : n < 16 ^ (k + 1)) :
    (natToHex n).length ≤ k + 1 :=
  natToHexAux_length (Nat.lt_succ_self n) hk

theorem natToHex_eq_zero_iff (n : Nat) : natToHex n = ['0'] ↔ n = 0 := by
  constructor
  · intro h
    have := congrArg hexVal h
    rw [hexVal_natToHex] at this
    simpa [hexVal, hexDigit?] using this
  · rintro rfl
    rfl

/-! ### Chunk decomposition -/

theorem toChunks_length (base n a : Nat) : (toChunks base n a).length = n := by
  induction n generalizing a with
  | zero => rfl
  | succ m ih => simp [toChunks, ih]

theorem toChunks_lt {base : Nat} (hb : 0 < base) (n a : Nat) :
    ∀ x ∈ toChunks base n a, x < base := by
  induction n generalizing a with
  | zero => simp [toChunks]
  | succ m ih =>
    intro x hx
    simp only [toChunks, List.mem_append, List.mem_singleton] at hx
    rcases hx with hl | hr
    · exact ih _ x hl
    · subst hr
      exact Nat.mod_lt _ hb

theorem fromChunks_append (base : Nat) (l1 l2 : List Nat) :
    fromChunks base (l1 ++ l2) = fromChunks base l1 * base ^ l2.length + fromChunks base l2 := by
  have key : ∀ (l : List Nat) (acc : Nat),
      l.foldl (fun acc x => acc * base + x) acc =
      acc * base ^ l.length + l.foldl (fun acc x => acc * base + x) 0 := by
    intro l
    induction l with
    | nil => simp
    | cons x xs ih =>
      intro acc
      simp only [List.foldl_cons, Nat.zero_mul, Nat.zero_add]
      rw [ih (acc * base + x), ih x]
      simp only [List.length_cons]
      ring
  simp only [fromChunks, List.foldl_append]
  rw [key l2 (List.foldl _ 0 l1)]

theorem fromChunks_toChunks (base n a : Nat) (hb : 1 < base) :
    fromChunks base (toChunks base n a) = a % base ^ n := by
  induction n generalizing a with
  | zero => simp [toChunks, fromChunks, Nat.mod_one]
  | succ m ih =>
    simp only [toChunks]
    rw [fromChunks_append, ih]
    simp only [List.length_singleton, pow_one, fromChunks, List.foldl_cons, List.foldl_nil,
      Nat.zero_mul, Nat.zero_add]
    have h1 : a % base ^ (m + 1) = a / base % base ^ m * base + a % base := by
      have e1 : base ^ (m + 1) = base * base ^ m := by
        rw [pow_succ]
        ring
      rw [e1]
      have h2 := Nat.mod_mul_right_div_self a base (base ^ m)
      have h3 : a % (base * base ^ m) % base = a % base := Nat.mod_mul_right_mod a base (base ^ m)
      have h4 := Nat.div_add_mod (a % (base * base ^ m)) base
      rw [h2, h3] at h4
      rw [← h4]
      ring
    omega

theorem fromChunks_toChunks_of_lt {base n a : Nat} (hb : 1 < base) (ha : a < base ^ n) :
    fromChunks base (toChunks base n a) = a := by
  rw [fromChunks_toChunks base n a hb, Nat.mod_eq_of_lt ha]

/-! ### Dyadic interval geometry -/

theorem dyadic_subset {i j a b x : Nat} (hij : i ≤ j) (ha : 2 ^ i ∣ a) (hb : 2 ^ j ∣ b)
    (hx1 : a ≤ x) (hx2 : x < a + 2 ^ i) (hy1 : b ≤ x) (hy2 : x < b + 2 ^ j) :
    b ≤ a ∧ a + 2 ^ i ≤ b + 2 ^ j := by
  have hb' : 2 ^ i ∣ b := dvd_trans (pow_dvd_pow 2 hij) hb
  have hji : (2 : Nat) ^ i ∣ 2 ^ j := pow_dvd_pow 2 hij
  constructor
  · by_contra hc
    push_neg at hc
    have hd : 2 ^ i ∣ b - a := Nat.dvd_sub' hb' ha
    have : 2 ^ i ≤ b - a := Nat.le_of_dvd (by omega) hd
    omega
  · by_contra hc
    push_neg at hc
    have hd : 2 ^ i ∣ (a + 2 ^ i) - (b + 2 ^ j) :=
      Nat.dvd_sub' (Nat.dvd_add ha dvd_rfl) (Nat.dvd_add hb' hji)
    have : 2 ^ i ≤ (a + 2 ^ i) - (b + 2 ^ j) := Nat.le_of_dvd (by omega) hd
    omega

theorem Net.size_pos (n : Net) : 0 < n.size := Nat.pos_pow_of_pos _ (by norm_num)

theorem Net.covers_iff (n : Net) (x : Nat) :
    n.covers x ↔ n.addr ≤ x ∧ x < n.addr + n.size := by
  have := n.size_pos
  unfold Net.covers Net.last
  omega

theorem mod_two_mul_of_dvd {s a : Nat} (hs : 0 < s) (h : s ∣ a) :
    a % (2 * s) = 0 ∨ a % (2 * s) = s := by
  have h1 : s ∣ a % (2 * s) := (Nat.dvd_mod_iff (dvd_mul_left s 2)).mpr h
  have h2 : a % (2 * s) < 2 * s := Nat.mod_lt _ (by omega)
  obtain ⟨q, hq⟩ := h1
  have : q < 2 := by
    by_contra hc
    push_neg at hc
    nlinarith
  interval_cases q <;> omega

theorem sub_mod_dvd (a m : Nat) : m ∣ a - a % m := by
  have h := Nat.div_add_mod a m
  exact ⟨a / m, by omega⟩

/-- The enclosing network one prefix bit shorter (meaningful when
`plen ≠ 0`). -/
def Net.parent (n : Net) : Net :=
  ⟨n.version, n.addr - n.addr % (2 * n.size), n.plen - 1⟩

theorem Net.parent_size {n : Net} (hv : n.Valid) (hp : n.plen ≠ 0) :
    n.parent.size = 2 * n.size := by
  obtain ⟨h1, _, _⟩ := hv
  show 2 ^ (famWidth n.version - (n.plen - 1)) = 2 * 2 ^ (famWidth n.version - n.plen)
  have : famWidth n.version - (n.plen - 1) = (famWidth n.version - n.plen) + 1 := by omega
  rw [this, pow_succ]
  ring

theorem Net.parent_addr_dvd {n : Net} (hv : n.Valid) (hp : n.plen ≠ 0) :
    2 * n.size ∣ n.parent.addr := sub_mod_dvd _ _

theorem Net.parent_covers {n : Net} (hv : n.Valid) (hp : n.plen ≠ 0) :
    ∀ x, n.covers x → n.parent.covers x := by
  intro x hx
  rw [Net.covers_iff] at hx ⊢
  rw [Net.parent_size hv hp]
  show n.addr - n.addr % (2 * n.size) ≤ x ∧ x < n.addr - n.addr % (2 * n.size) + 2 * n.size
  rcases mod_two_mul_of_dvd n.size_pos (Nat.dvd_of_mod_eq_zero hv.2.2) with h | h <;> omega

theorem Net.parent_valid {n : Net} (hv : n.Valid) (hp : n.plen ≠ 0) : n.parent.Valid := by
  obtain ⟨h1, h2, h3⟩ := hv
  refine ⟨by show n.plen - 1 ≤ famWidth n.version; omega, ?_, ?_⟩
  · rw [Net.parent_size ⟨h1, h2, h3⟩ hp]
    show n.addr - n.addr % (2 * n.size) + 2 * n.size ≤ 2 ^ famWidth n.version
    have hdvd : 2 * n.size ∣ n.addr - n.addr % (2 * n.size) := sub_mod_dvd _ _
    have hsz : 2 * n.size ∣ 2 ^ famWidth n.version := by
      have : n.size = 2 ^ (famWidth n.version - n.plen) := rfl
      rw [this, ← pow_succ']
      exact pow_dvd_pow 2 (by omega)
    by_contra hc
    push_neg at hc
    have hlt : n.addr - n.addr % (2 * n.size) < 2 ^ famWidth n.version := by
      have := n.size_pos
      have := Nat.mod_le n.addr (2 * n.size)
      omega
    have hd : 2 * n.size ∣ 2 ^ famWidth n.version - (n.addr - n.addr % (2 * n.size)) :=
      Nat.dvd_sub' hsz hdvd
    have := Nat.le_of_dvd (by omega) hd
    omega
  · rw [Net.parent_size ⟨h1, h2, h3⟩ hp]
    show (n.addr - n.addr % (2 * n.size)) % (2 * n.size) = 0
    obtain ⟨q, hq⟩ := sub_mod_dvd n.addr (2 * n.size)
    rw [hq]
    exact Nat.mul_mod_right _ _

theorem Net.size_le_iff {m n : Net} (hm : m.Valid) (hn : n.Valid) :
    m.size ≤ n.size ↔
    famWidth m.version - m.plen ≤ famWidth n.version - n.plen := by
  show 2 ^ _ ≤ 2 ^ _ ↔ _
  exact Nat.pow_le_pow_iff_right (by norm_num)

/-- Two well-formed networks sharing an address nest: the one with the
smaller block size is contained in the other. -/
theorem Net.nest {m n : Net} (hm : m.Valid) (hn : n.Valid) (hsize : m.size ≤ n.size)
    {x : Nat} (hxm : m.covers x) (hxn : n.covers x) :
    n.addr ≤ m.addr ∧ m.addr + m.size ≤ n.addr + n.size := by
  rw [Net.covers_iff] at hxm hxn
  exact dyadic_subset ((Net.size_le_iff hm hn).mp hsize)
    (Nat.dvd_of_mod_eq_zero hm.2.2) (Nat.dvd_of_mod_eq_zero hn.2.2)
    hxm.1 hxm.2 hxn.1 hxn.2

/-- A well-formed network strictly smaller than another one it meets is
contained in it together with its whole parent. -/
theorem Net.parent_nest {m n : Net} (hm : m.Valid) (hn : n.Valid) (hp : m.plen ≠ 0)
    (hsize : m.size < n.size) {x : Nat} (hxm : m.covers x) (hxn : n.covers x) :
    n.addr ≤ m.parent.addr ∧ m.parent.addr + m.parent.size ≤ n.addr + n.size := by
  have hpv := Net.parent_valid hm hp
  have hpx := Net.parent_covers hm hp x hxm
  have hps : m.parent.size ≤ n.size := by
    rw [Net.parent_size hm hp]
    have h1 : famWidth m.version - m.plen < famWidth n.version - n.plen :=
      (Nat.pow_lt_pow_iff_right (by norm_num : 1 < 2)).mp hsize
    show 2 * 2 ^ (famWidth m.version - m.plen) ≤ 2 ^ (famWidth n.version - n.plen)
    rw [← pow_succ']
    exact Nat.pow_le_pow_right (by norm_num) (by omega)
  rw [Net.covers_iff] at hpx hxn
  exact dyadic_subset ((Net.size_le_iff hpv hn).mp hps)
    (Nat.dvd_of_mod_eq_zero hpv.2.2) (Nat.dvd_of_mod_eq_zero hn.2.2)
    hpx.1 hpx.2 hxn.1 hxn.2

/-! ### Alignment and size bounds for the greedy packer -/

theorem alignOf_le (j s : Nat) : alignOf j s ≤ j := by
  induction j with
  | zero => simp [alignOf]
  | succ m ih =>
    simp only [alignOf]
    split
    · omega
    · omega

theorem alignOf_dvd (j s : Nat) : 2 ^ alignOf j s ∣ s := by
  induction j with
  | zero => simp [alignOf]
  | succ m ih =>
    simp only [alignOf]
    split
    · rename_i h
      exact Nat.dvd_of_mod_eq_zero h
    · exact ih

theorem le_alignOf {j s k : Nat} (hk : k ≤ j) (hd : 2 ^ k ∣ s) : k ≤ alignOf j s := by
  induction j with
  | zero => omega
  | succ m ih =>
    simp only [alignOf]
    split
    · omega
    · rename_i h
      rcases Nat.lt_or_ge k (m + 1) with hlt | hge
      · exact ih (by omega)
      · have : k = m + 1 := by omega
        subst this
        exact absurd (Nat.mod_eq_zero_of_dvd hd) h

theorem alignOf_succ_not_dvd {j s : Nat} (h : alignOf j s < j) :
    ¬ 2 ^ (alignOf j s + 1) ∣ s := by
  intro hd
  have := le_alignOf (j := j) (s := s) (k := alignOf j s + 1) (Nat.succ_le_of_lt h) hd
  omega

theorem maxKOf_le (j len : Nat) : maxKOf j len ≤ j := by
  induction j with
  | zero => simp [maxKOf]
  | succ m ih =>
    simp only [maxKOf]
    split
    · omega
    · omega

theorem maxKOf_le_len {j len : Nat} (hlen : 1 ≤ len) : 2 ^ maxKOf j len ≤ len := by
  induction j with
  | zero => simpa [maxKOf]
  | succ m ih =>
    simp only [maxKOf]
    split
    · rename_i h
      exact h
    · exact ih

theorem le_maxKOf {j len k : Nat} (hk : k ≤ j) (hd : 2 ^ k ≤ len) : k ≤ maxKOf j len := by
  induction j with
  | zero => omega
  | succ m ih =>
    simp only [maxKOf]
    split
    · omega
    · rename_i h
      rcases Nat.lt_or_ge k (m + 1) with hlt | hge
      · exact ih (by omega)
      · have : k = m + 1 := by omega
        subst this
        exact absurd hd h

theorem maxKOf_succ_gt {j len : Nat} (h : maxKOf j len < j) :
    len < 2 ^ (maxKOf j len + 1) := by
  by_contra hc
  push_neg at hc
  have := @le_maxKOf j len (maxKOf j len + 1) (Nat.succ_le_of_lt h) hc
  omega

/-! ### Properties of the greedy interval packer -/

theorem size_mk {v w k : Nat} (s : Nat) (hw : famWidth v = w) (hk : k ≤ w) :
    (Net.mk v s (w - k)).size = 2 ^ k := by
  show 2 ^ (famWidth v - (w - k)) = 2 ^ k
  rw [hw]
  congr 1
  omega

theorem parent_mk_addr {v w k : Nat} (s : Nat) (hw : famWidth v = w) (hk : k ≤ w) :
    (Net.parent ⟨v, s, w - k⟩).addr = s - s % 2 ^ (k + 1) := by
  show s - s % (2 * (Net.mk v s (w - k)).size) = s - s % 2 ^ (k + 1)
  rw [size_mk s hw hk, ← pow_succ']

theorem parent_mk_size {v w k : Nat} (s : Nat) (hw : famWidth v = w) (hkw : k < w) :
    (Net.parent ⟨v, s, w - k⟩).size = 2 ^ (k + 1) := by
  show 2 ^ (famWidth v - (w - k - 1)) = 2 ^ (k + 1)
  rw [hw]
  congr 1
  omega

theorem packGo_nil_of_gt {v w fuel s e : Nat} (h : e < s) : packGo v w fuel s e = [] := by
  cases fuel with
  | zero => rfl
  | succ f => simp only [packGo]; rw [if_neg (by omega)]

theorem packGo_props {v w : Nat} (hw : famWidth v = w) :
    ∀ fuel s e, e + 1 ≤ s + fuel → e < 2 ^ w →
      ∀ b ∈ packGo v w fuel s e,
        b.version = v ∧ b.Valid ∧ s ≤ b.addr ∧ b.addr + b.size ≤ e + 1 := by
  intro fuel
  induction fuel with
  | zero => intro s e hf he b hb; simp [packGo] at hb
  | succ f ih =>
    intro s e hf he b hb
    simp only [packGo] at hb
    by_cases hse : s ≤ e
    · rw [if_pos hse] at hb
      set k := min (alignOf w s) (maxKOf w (e + 1 - s)) with hkdef
      have hkw : k ≤ w := le_trans (Nat.min_le_left _ _) (alignOf_le w s)
      have hkdvd : 2 ^ k ∣ s :=
        dvd_trans (pow_dvd_pow 2 (Nat.min_le_left _ _)) (alignOf_dvd w s)
      have hklen : 2 ^ k ≤ e + 1 - s :=
        le_trans (Nat.pow_le_pow_right (by norm_num) (Nat.min_le_right _ _))
          (maxKOf_le_len (by omega))
      have hkpos : 0 < 2 ^ k := Nat.pos_pow_of_pos _ (by norm_num)
      have hsize : (Net.mk v s (w - k)).size = 2 ^ k := size_mk s hw hkw
      rcases List.mem_cons.mp hb with rfl | htail
      · refine ⟨rfl, ⟨?_, ?_, ?_⟩, Nat.le_refl _, ?_⟩
        · show w - k ≤ famWidth v
          omega
        · show s + (Net.mk v s (w - k)).size ≤ 2 ^ famWidth v
          rw [hsize, hw]
          omega
        · show s % (Net.mk v s (w - k)).size = 0
          rw [hsize]
          exact Nat.mod_eq_zero_of_dvd hkdvd
        · show s + (Net.mk v s (w - k)).size ≤ e + 1
          rw [hsize]
          omega
      · have := ih (s + 2 ^ k) e (by omega) he b htail
        exact ⟨this.1, this.2.1, by omega, this.2.2.2⟩
    · rw [if_neg hse] at hb
      simp at hb

theorem packGo_cover {v w : Nat} (hw : famWidth v = w) :
    ∀ fuel s e, e + 1 ≤ s + fuel → e < 2 ^ w →
      ∀ a, memUnion (packGo v w fuel s e) a ↔ (s ≤ a ∧ a ≤ e) := by
  intro fuel
  induction fuel with
  | zero =>
    intro s e hf he a
    simp only [packGo, memUnion]
    simp only [List.not_mem_nil, false_and, exists_false, false_iff]
    omega
  | succ f ih =>
    intro s e hf he a
    by_cases hse : s ≤ e
    · simp only [packGo, if_pos hse]
      set k := min (alignOf w s) (maxKOf w (e + 1 - s)) with hkdef
      have hkw : k ≤ w := le_trans (Nat.min_le_left _ _) (alignOf_le w s)
      have hklen : 2 ^ k ≤ e + 1 - s :=
        le_trans (Nat.pow_le_pow_right (by norm_num) (Nat.min_le_right _ _))
          (maxKOf_le_len (by omega))
      have hkpos : 0 < 2 ^ k := Nat.pos_pow_of_pos _ (by norm_num)
      have hsize : (Net.mk v s (w - k)).size = 2 ^ k := size_mk s hw hkw
      have hcov : ∀ x, (Net.mk v s (w - k)).covers x ↔ (s ≤ x ∧ x < s + 2 ^ k) := by
        intro x
        rw [Net.covers_iff, hsize]
      have htail := ih (s + 2 ^ k) e (by omega) he a
      constructor
      · rintro ⟨b, hb, hcb⟩
        rcases List.mem_cons.mp hb with rfl | hmem
        · have := (hcov a).mp hcb
          omega
        · have := htail.mp ⟨b, hmem, hcb⟩
          omega
      · intro ha
        by_cases hfst : a < s + 2 ^ k
        · exact ⟨_, List.mem_cons_self _ _, (hcov a).mpr ⟨ha.1, hfst⟩⟩
        · obtain ⟨b, hb, hcb⟩ := htail.mpr ⟨by omega, ha.2⟩
          exact ⟨b, List.mem_cons_of_mem _ hb, hcb⟩
    · rw [packGo_nil_of_gt (by omega)]
      simp only [memUnion, List.not_mem_nil, false_and, exists_false, false_iff]
      omega

theorem packGo_sorted {v w : Nat} (hw : famWidth v = w) :
    ∀ fuel s e, e + 1 ≤ s + fuel → e < 2 ^ w →
      (packGo v w fuel s e).Pairwise (fun a b => a.addr < b.addr) := by
  intro fuel
  induction fuel with
  | zero => intro s e hf he; simp [packGo]
  | succ f ih =>
    intro s e hf he
    by_cases hse : s ≤ e
    · simp only [packGo, if_pos hse]
      set k := min (alignOf w s) (maxKOf w (e + 1 - s)) with hkdef
      have hkpos : 0 < 2 ^ k := Nat.pos_pow_of_pos _ (by norm_num)
      refine List.Pairwise.cons ?_ (ih (s + 2 ^ k) e (by omega) he)
      intro b hb
      have := (packGo_props hw f (s + 2 ^ k) e (by omega) he b hb).2.2.1
      show s < b.addr
      omega
    · rw [packGo_nil_of_gt (by omega)]
      exact List.Pairwise.nil

theorem packGo_maximal {v w : Nat} (hw : famWidth v = w) :
    ∀ fuel s e s₀, e + 1 ≤ s + fuel → e < 2 ^ w → s₀ ≤ s →
      (s < s₀ + 2 ^ alignOf w s ∨ e + 1 < s + 2 ^ alignOf w s) →
      ∀ b ∈ packGo v w fuel s e, b.plen ≠ 0 →
        ¬ (s₀ ≤ b.parent.addr ∧ b.parent.addr + b.parent.size ≤ e + 1) := by
  intro fuel
  induction fuel with
  | zero => intro s e s₀ hf he hs₀ hQ b hb; simp [packGo] at hb
  | succ f ih =>
    intro s e s₀ hf he hs₀ hQ b hb hplen
    simp only [packGo] at hb
    by_cases hse : s ≤ e
    · rw [if_pos hse] at hb
      set k := min (alignOf w s) (maxKOf w (e + 1 - s)) with hkdef
      have hkw : k ≤ w := le_trans (Nat.min_le_left _ _) (alignOf_le w s)
      have hkA : k ≤ alignOf w s := Nat.min_le_left _ _
      have hkM : k ≤ maxKOf w (e + 1 - s) := Nat.min_le_right _ _
      have hkdvd : 2 ^ k ∣ s := dvd_trans (pow_dvd_pow 2 hkA) (alignOf_dvd w s)
      have hklen : 2 ^ k ≤ e + 1 - s :=
        le_trans (Nat.pow_le_pow_right (by norm_num) hkM) (maxKOf_le_len (by omega))
      have hkpos : 0 < 2 ^ k := Nat.pos_pow_of_pos _ (by norm_num)
      rcases List.mem_cons.mp hb with rfl | htail
      · -- the head block
        have hkw' : k < w := by
          have : (Net.mk v s (w - k)).plen = w - k := rfl
          omega
        rintro ⟨hc1, hc2⟩
        rw [parent_mk_addr s hw hkw] at hc1 hc2
        rw [parent_mk_size s hw hkw'] at hc2
        rcases le_or_lt (alignOf w s) (maxKOf w (e + 1 - s)) with hAM | hMA
        · -- alignment-limited: k equals the alignment of s
          have hkeq : k = alignOf w s := by rw [hkdef, Nat.min_eq_left hAM]
          have hQ1 : s < s₀ + 2 ^ alignOf w s := by
            rcases hQ with h | h
            · exact h
            · rw [← hkeq] at h
              omega
          have hnd : ¬ 2 ^ (alignOf w s + 1) ∣ s := alignOf_succ_not_dvd (by omega)
          have hmod : s % 2 ^ (k + 1) = 2 ^ k := by
            have h2 : 2 ^ (k + 1) = 2 * 2 ^ k := by rw [pow_succ']
            rcases mod_two_mul_of_dvd hkpos hkdvd with h | h
            · exfalso
              apply hnd
              rw [← hkeq]
              rw [h2]
              exact Nat.dvd_of_mod_eq_zero (by rw [← h2] at h ⊢; exact h)
            · rw [h2]
              exact h
          have hsge : 2 ^ k ≤ s := by
            have := Nat.mod_le s (2 ^ (k + 1))
            omega
          rw [hmod] at hc1
          rw [← hkeq] at hQ1
          omega
        · -- length-limited: k equals the largest fitting size
          have hkeq : k = maxKOf w (e + 1 - s) := by rw [hkdef, Nat.min_eq_right (by omega)]
          have hdvd1 : 2 ^ (k + 1) ∣ s := by
            apply dvd_trans (pow_dvd_pow 2 (show k + 1 ≤ alignOf w s by omega))
            exact alignOf_dvd w s
          have hmod : s % 2 ^ (k + 1) = 0 := Nat.mod_eq_zero_of_dvd hdvd1
          have hlen : e + 1 - s < 2 ^ (k + 1) := by
            rw [hkeq]
            exact maxKOf_succ_gt (by omega)
          rw [hmod, Nat.sub_zero] at hc2
          omega
      · -- blocks of the recursive call
        by_cases hse' : s + 2 ^ k ≤ e
        · have hkw' : k < w := by
            by_contra hc
            push_neg at hc
            have : (2 : Nat) ^ w ≤ 2 ^ k := Nat.pow_le_pow_right (by norm_num) hc
            omega
          refine ih (s + 2 ^ k) e s₀ (by omega) he (by omega) ?_ b htail hplen
          rcases le_or_lt (alignOf w s) (maxKOf w (e + 1 - s)) with hAM | hMA
          · -- alignment-limited step
            have hkeq : k = alignOf w s := by rw [hkdef, Nat.min_eq_left hAM]
            have hQ1 : s < s₀ + 2 ^ alignOf w s := by
              rcases hQ with h | h
              · exact h
              · rw [← hkeq] at h
                omega
            have hnd : ¬ 2 ^ (alignOf w s + 1) ∣ s := alignOf_succ_not_dvd (by omega)
            have hmod : s % 2 ^ (k + 1) = 2 ^ k := by
              have h2 : 2 ^ (k + 1) = 2 * 2 ^ k := by rw [pow_succ']
              rcases mod_two_mul_of_dvd hkpos hkdvd with h | h
              · exfalso
                apply hnd
                rw [← hkeq, h2]
                exact Nat.dvd_of_mod_eq_zero (by rw [← h2] at h ⊢; exact h)
              · rw [h2]
                exact h
            have hdvd' : 2 ^ (k + 1) ∣ s + 2 ^ k := by
              have h1 : (s + 2 ^ k) % 2 ^ (k + 1) = 0 := by
                conv_lhs => rw [Nat.add_mod, hmod]
                have h2 : 2 ^ k % 2 ^ (k + 1) = 2 ^ k :=
                  Nat.mod_eq_of_lt (Nat.pow_lt_pow_right (by norm_num) (by omega))
                rw [h2]
                have h3 : 2 ^ k + 2 ^ k = 2 ^ (k + 1) := by rw [pow_succ]; ring
                rw [h3, Nat.mod_self]
              exact Nat.dvd_of_mod_eq_zero h1
            have halign' : k + 1 ≤ alignOf w (s + 2 ^ k) := le_alignOf (by omega) hdvd'
            left
            calc s + 2 ^ k < s₀ + 2 ^ alignOf w s + 2 ^ k := by omega
            _ = s₀ + 2 ^ k + 2 ^ k := by rw [← hkeq]
            _ = s₀ + 2 ^ (k + 1) := by rw [pow_succ]; ring_nf
            _ ≤ s₀ + 2 ^ alignOf w (s + 2 ^ k) := by
                have := Nat.pow_le_pow_right (show 1 ≤ 2 by norm_num) halign'
                omega
          · -- length-limited step
            have hkeq : k = maxKOf w (e + 1 - s) := by rw [hkdef, Nat.min_eq_right (by omega)]
            have hlen : e + 1 - s < 2 ^ (k + 1) := by
              rw [hkeq]
              exact maxKOf_succ_gt (by omega)
            have hdvd' : 2 ^ k ∣ s + 2 ^ k := Nat.dvd_add hkdvd dvd_rfl
            have halign' : k ≤ alignOf w (s + 2 ^ k) := le_alignOf (by omega) hdvd'
            right
            have h2k : 2 ^ k ≤ 2 ^ alignOf w (s + 2 ^ k) :=
              Nat.pow_le_pow_right (by norm_num) halign'
            have h3 : 2 ^ (k + 1) = 2 * 2 ^ k := by rw [pow_succ']
            omega
        · rw [packGo_nil_of_gt (by omega)] at htail
          simp at htail
    · rw [if_neg hse] at hb
      simp at hb

/-! ### Properties of the interval sweep -/

/-- An address lies in one of a list of closed intervals. -/
def ivMem (l : List (Nat × Nat)) (a : Nat) : Prop := ∃ p ∈ l, p.1 ≤ a ∧ a ≤ p.2

instance (l : List (Nat × Nat)) (a : Nat) : Decidable (ivMem l a) := by
  unfold ivMem; infer_instance

theorem sweepGo_lb (cur : Nat × Nat) (rest : List (Nat × Nat))
    (hall : ∀ p ∈ rest, cur.1 ≤ p.1)
    (hpw : rest.Pairwise (fun p q => p.1 ≤ q.1)) :
    ∀ q ∈ sweepGo cur rest, cur.1 ≤ q.1 := by
  induction rest generalizing cur with
  | nil =>
    intro q hq
    obtain ⟨s, e⟩ := cur
    simp only [sweepGo, List.mem_singleton] at hq
    subst hq
    exact Nat.le_refl _
  | cons p rest' ih =>
    intro q hq
    obtain ⟨s, e⟩ := cur
    obtain ⟨s', e'⟩ := p
    have hss' : s ≤ s' := hall (s', e') (by simp)
    simp only [sweepGo] at hq
    split at hq
    · have hmin : min s s' = s := Nat.min_eq_left hss'
      have := ih (min s s', max e e')
        (fun r hr => by
          have h1 := (List.pairwise_cons.mp hpw).1 r hr
          simp only [hmin]
          omega)
        (List.pairwise_cons.mp hpw).2 q hq
      simpa [hmin] using this
    · rcases List.mem_cons.mp hq with rfl | hq'
      · exact Nat.le_refl _
      · have := ih (s', e')
          (fun r hr => (List.pairwise_cons.mp hpw).1 r hr)
          (List.pairwise_cons.mp hpw).2 q hq'
        omega

theorem ivMem_cons (p : Nat × Nat) (l : List (Nat × Nat)) (a : Nat) :
    ivMem (p :: l) a ↔ (p.1 ≤ a ∧ a ≤ p.2) ∨ ivMem l a := by
  simp [ivMem]

theorem sweepGo_cover (cur : Nat × Nat) (rest : List (Nat × Nat))
    (hcur : cur.1 ≤ cur.2)
    (hwf : ∀ p ∈ rest, p.1 ≤ p.2)
    (hall : ∀ p ∈ rest, cur.1 ≤ p.1)
    (hpw : rest.Pairwise (fun p q => p.1 ≤ q.1)) :
    ∀ a, ivMem (sweepGo cur rest) a ↔ ((cur.1 ≤ a ∧ a ≤ cur.2) ∨ ivMem rest a) := by
  induction rest generalizing cur with
  | nil =>
    intro a
    obtain ⟨s, e⟩ := cur
    simp [sweepGo, ivMem]
  | cons p rest' ih =>
    intro a
    obtain ⟨s, e⟩ := cur
    obtain ⟨s', e'⟩ := p
    have hss' : s ≤ s' := hall (s', e') (by simp)
    have hse' : s' ≤ e' := hwf (s', e') (by simp)
    simp only [sweepGo]
    split
    · rename_i hmerge
      have hmin : min s s' = s := Nat.min_eq_left hss'
      rw [ih (min s s', max e e') (by simp only [hmin]; omega)
        (fun r hr => hwf r (List.mem_cons_of_mem _ hr))
        (fun r hr => by
          have h1 := (List.pairwise_cons.mp hpw).1 r hr
          simp only [hmin]
          omega)
        (List.pairwise_cons.mp hpw).2]
      rw [ivMem_cons]
      simp only [hmin]
      constructor
      · rintro (⟨h1, h2⟩ | hr)
        · by_cases ha : a ≤ e
          · exact Or.inl ⟨h1, ha⟩
          · refine Or.inr (Or.inl ⟨by omega, by omega⟩)
        · exact Or.inr (Or.inr hr)
      · rintro (⟨h1, h2⟩ | ⟨h1, h2⟩ | hr)
        · exact Or.inl ⟨h1, by omega⟩
        · exact Or.inl ⟨by omega, by omega⟩
        · exact Or.inr hr
    · rename_i hnm
      push_neg at hnm
      rw [ivMem_cons, ivMem_cons,
        ih (s', e') hse' (fun r hr => hwf r (List.mem_cons_of_mem _ hr))
          (fun r hr => (List.pairwise_cons.mp hpw).1 r hr)
          (List.pairwise_cons.mp hpw).2 a]

theorem sweepGo_wf (cur : Nat × Nat) (rest : List (Nat × Nat))
    (hcur : cur.1 ≤ cur.2) (hwf : ∀ p ∈ rest, p.1 ≤ p.2) :
    ∀ p ∈ sweepGo cur rest, p.1 ≤ p.2 := by
  induction rest generalizing cur with
  | nil =>
    intro p hp
    obtain ⟨s, e⟩ := cur
    simp only [sweepGo, List.mem_singleton] at hp
    subst hp
    exact hcur
  | cons q rest' ih =>
    intro p hp
    obtain ⟨s, e⟩ := cur
    obtain ⟨s', e'⟩ := q
    simp only [sweepGo] at hp
    split at hp
    · refine ih (min s s', max e e') ?_ (fun r hr => hwf r (List.mem_cons_of_mem _ hr)) p hp
      show min s s' ≤ max e e'
      have h1 : min s s' ≤ s := Nat.min_le_left _ _
      have h2 : e ≤ max e e' := Nat.le_max_left _ _
      omega
    · rcases List.mem_cons.mp hp with rfl | hp'
      · exact hcur
      · exact ih (s', e') (hwf (s', e') (by simp))
          (fun r hr => hwf r (List.mem_cons_of_mem _ hr)) p hp'

theorem sweepGo_bound (B : Nat) (cur : Nat × Nat) (rest : List (Nat × Nat))
    (hcur : cur.2 < B) (hb : ∀ p ∈ rest, p.2 < B) :
    ∀ p ∈ sweepGo cur rest, p.2 < B := by
  induction rest generalizing cur with
  | nil =>
    intro p hp
    obtain ⟨s, e⟩ := cur
    simp only [sweepGo, List.mem_singleton] at hp
    subst hp
    exact hcur
  | cons q rest' ih =>
    intro p hp
    obtain ⟨s, e⟩ := cur
    obtain ⟨s', e'⟩ := q
    simp only [sweepGo] at hp
    split at hp
    · refine ih (min s s', max e e') ?_ (fun r hr => hb r (List.mem_cons_of_mem _ hr)) p hp
      show max e e' < B
      have := hb (s', e') (by simp)
      simp only at this
      omega
    · rcases List.mem_cons.mp hp with rfl | hp'
      · exact hcur
      · exact ih (s', e') (hb (s', e') (by simp))
          (fun r hr => hb r (List.mem_cons_of_mem _ hr)) p hp'

theorem sweepGo_gap (cur : Nat × Nat) (rest : List (Nat × Nat))
    (hall : ∀ p ∈ rest, cur.1 ≤ p.1)
    (hpw : rest.Pairwise (fun p q => p.1 ≤ q.1)) :
    (sweepGo cur rest).Pairwise (fun p q => p.2 + 2 ≤ q.1) := by
  induction rest generalizing cur with
  | nil =>
    obtain ⟨s, e⟩ := cur
    simp [sweepGo]
  | cons q rest' ih =>
    obtain ⟨s, e⟩ := cur
    obtain ⟨s', e'⟩ := q
    have hss' : s ≤ s' := hall (s', e') (by simp)
    simp only [sweepGo]
    split
    · rename_i hmerge
      have hmin : min s s' = s := Nat.min_eq_left hss'
      refine ih (min s s', max e e') ?_ (List.pairwise_cons.mp hpw).2
      intro r hr
      have h1 := (List.pairwise_cons.mp hpw).1 r hr
      simp only [hmin]
      omega
    · rename_i hnm
      push_neg at hnm
      refine List.Pairwise.cons ?_ ?_
      · intro r hr
        have h1 := sweepGo_lb (s', e') rest'
          (fun x hx => (List.pairwise_cons.mp hpw).1 x hx)
          (List.pairwise_cons.mp hpw).2 r hr
        show e + 2 ≤ r.1
        simp only at h1
        omega
      · exact ih (s', e') (fun x hx => (List.pairwise_cons.mp hpw).1 x hx)
          (List.pairwise_cons.mp hpw).2

theorem sweep_cover (l : List (Nat × Nat)) (hwf : ∀ p ∈ l, p.1 ≤ p.2)
    (hpw : l.Pairwise (fun p q => p.1 ≤ q.1)) :
    ∀ a, ivMem (sweep l) a ↔ ivMem l a := by
  intro a
  match l with
  | [] => simp [sweep]
  | p :: rest =>
    show ivMem (sweepGo p rest) a ↔ _
    rw [sweepGo_cover p rest (hwf p (by simp))
      (fun r hr => hwf r (List.mem_cons_of_mem _ hr))
      (fun r hr => (List.pairwise_cons.mp hpw).1 r hr)
      (List.pairwise_cons.mp hpw).2 a, ivMem_cons]

theorem sweep_wf (l : List (Nat × Nat)) (hwf : ∀ p ∈ l, p.1 ≤ p.2) :
    ∀ p ∈ sweep l, p.1 ≤ p.2 := by
  match l with
  | [] => intro p hp; simp [sweep] at hp
  | q :: rest =>
    exact sweepGo_wf q rest (hwf q (by simp)) (fun r hr => hwf r (List.mem_cons_of_mem _ hr))

theorem sweep_bound (B : Nat) (l : List (Nat × Nat)) (hb : ∀ p ∈ l, p.2 < B) :
    ∀ p ∈ sweep l, p.2 < B := by
  match l with
  | [] => intro p hp; simp [sweep] at hp
  | q :: rest =>
    exact sweepGo_bound B q rest (hb q (by simp)) (fun r hr => hb r (List.mem_cons_of_mem _ hr))

theorem sweep_gap (l : List (Nat × Nat))
    (hpw : l.Pairwise (fun p q => p.1 ≤ q.1)) :
    (sweep l).Pairwise (fun p q => p.2 + 2 ≤ q.1) := by
  match l with
  | [] => simp [sweep]
  | q :: rest =>
    exact sweepGo_gap q rest (fun r hr => (List.pairwise_cons.mp hpw).1 r hr)
      (List.pairwise_cons.mp hpw).2

theorem gap_not_left {l : List (Nat × Nat)} (hwf : ∀ p ∈ l, p.1 ≤ p.2)
    (hgap : l.Pairwise (fun p q => p.2 + 2 ≤ q.1)) {p : Nat × Nat} (hp : p ∈ l)
    (hp1 : 1 ≤ p.1) : ¬ ivMem l (p.1 - 1) := by
  rintro ⟨q, hq, hq1, hq2⟩
  by_cases hpq : p = q
  · subst hpq
    omega
  · have hsym : ∀ a ∈ l, ∀ b ∈ l, a ≠ b → (a.2 + 2 ≤ b.1 ∨ b.2 + 2 ≤ a.1) := by
      have h2 : l.Pairwise (fun a b => a.2 + 2 ≤ b.1 ∨ b.2 + 2 ≤ a.1) :=
        hgap.imp (fun h => Or.inl h)
      intro a ha b hb hab
      exact List.Pairwise.forall (fun x y h => h.symm) h2 ha hb hab
    have h3 := hsym p hp q hq hpq
    have h4 := hwf q hq
    have h5 := hwf p hp
    omega

theorem gap_not_right {l : List (Nat × Nat)} (hwf : ∀ p ∈ l, p.1 ≤ p.2)
    (hgap : l.Pairwise (fun p q => p.2 + 2 ≤ q.1)) {p : Nat × Nat} (hp : p ∈ l) :
    ¬ ivMem l (p.2 + 1) := by
  rintro ⟨q, hq, hq1, hq2⟩
  by_cases hpq : p = q
  · subst hpq
    omega
  · have hsym : ∀ a ∈ l, ∀ b ∈ l, a ≠ b → (a.2 + 2 ≤ b.1 ∨ b.2 + 2 ≤ a.1) := by
      have h2 : l.Pairwise (fun a b => a.2 + 2 ≤ b.1 ∨ b.2 + 2 ≤ a.1) :=
        hgap.imp (fun h => Or.inl h)
      intro a ha b hb hab
      exact List.Pairwise.forall (fun x y h => h.symm) h2 ha hb hab
    have h3 := hsym p hp q hq hpq
    have h4 := hwf p hp
    have h5 := hwf q hq
    omega

/-! ### Properties of the subsumption filter and the sort -/

theorem collapse1_subset {l : List Net} {b : Net} (hb : b ∈ collapse1 l) : b ∈ l := by
  unfold collapse1 at hb
  exact List.mem_dedup.mp (List.mem_of_mem_filter hb)

theorem collapse1_dropped {l : List Net} {b : Net} (hb : b ∈ l.dedup)
    (hnot : b ∉ collapse1 l) :
    ∃ m ∈ l.dedup, m ≠ b ∧ m.addr ≤ b.addr ∧ b.last ≤ m.last := by
  unfold collapse1 at hnot
  rw [List.mem_filter] at hnot
  push_neg at hnot
  have h := hnot hb
  have h2 : (l.dedup.any fun a =>
      decide (a ≠ b) && decide (a.addr ≤ b.addr) && decide (b.last ≤ a.last)) = true := by
    revert h
    cases l.dedup.any fun a =>
      decide (a ≠ b) && decide (a.addr ≤ b.addr) && decide (b.last ≤ a.last) <;> simp
  rw [List.any_eq_true] at h2
  obtain ⟨m, hm, hmb⟩ := h2
  rw [Bool.and_eq_true, Bool.and_eq_true, decide_eq_true_eq, decide_eq_true_eq,
    decide_eq_true_eq] at hmb
  exact ⟨m, hm, hmb.1.1, hmb.1.2, hmb.2⟩

theorem Net.size_eq_of_interval {m b : Net} (hms : m.addr ≤ b.addr) (hbl : b.last ≤ m.last)
    (hsz : m.size ≤ b.size) : m.addr = b.addr ∧ m.size = b.size := by
  have h1 := m.size_pos
  have h2 := b.size_pos
  unfold Net.last at hbl
  omega

theorem Net.plen_lt_of_strict {v : Nat} {m b : Net} (hmv : m.Valid) (hbv : b.Valid)
    (hm : m.version = v) (hbver : b.version = v) (hne : m ≠ b)
    (hms : m.addr ≤ b.addr) (hbl : b.last ≤ m.last) : m.plen < b.plen := by
  rcases Nat.lt_or_ge m.plen b.plen with h | h
  · exact h
  · exfalso
    have hsz : m.size ≤ b.size := by
      unfold Net.size
      rw [hm, hbver]
      exact Nat.pow_le_pow_right (by norm_num) (by omega)
    obtain ⟨ha, hs⟩ := Net.size_eq_of_interval hms hbl hsz
    have hplen : m.plen = b.plen := by
      unfold Net.size at hs
      rw [hm, hbver] at hs
      have := Nat.pow_right_injective (le_refl 2) hs
      have hm1 := hmv.1
      have hb1 := hbv.1
      rw [hm] at hm1
      rw [hbver] at hb1
      omega
    apply hne
    have hver : m.version = b.version := by rw [hm, hbver]
    cases m
    cases b
    simp only [Net.mk.injEq]
    simp only at ha hplen hver
    exact ⟨hver, ha, hplen⟩

theorem collapse1_container {l : List Net} {v : Nat}
    (hv : ∀ n ∈ l, n.Valid ∧ n.version = v) :
    ∀ b ∈ l.dedup, ∃ m ∈ collapse1 l, m.addr ≤ b.addr ∧ b.last ≤ m.last := by
  suffices H : ∀ p, ∀ b ∈ l.dedup, b.plen = p →
      ∃ m ∈ collapse1 l, m.addr ≤ b.addr ∧ b.last ≤ m.last by
    exact fun b hb => H b.plen b hb rfl
  intro p
  induction p using Nat.strong_induction_on with
  | _ p ih =>
    intro b hb hbp
    by_cases hbc : b ∈ collapse1 l
    · exact ⟨b, hbc, Nat.le_refl _, Nat.le_refl _⟩
    · obtain ⟨m, hm, hne, h1, h2⟩ := collapse1_dropped hb hbc
      have hmv := hv m (List.mem_dedup.mp hm)
      have hbv := hv b (List.mem_dedup.mp hb)
      have hlt : m.plen < b.plen :=
        Net.plen_lt_of_strict hmv.1 hbv.1 hmv.2 hbv.2 hne h1 h2
      obtain ⟨m', hm', h1', h2'⟩ := ih m.plen (by omega) m hm rfl
      exact ⟨m', hm', by omega, by omega⟩

theorem collapse1_cover {l : List Net} {v : Nat}
    (hv : ∀ n ∈ l, n.Valid ∧ n.version = v) :
    ∀ a, memUnion (collapse1 l) a ↔ memUnion l a := by
  intro a
  constructor
  · rintro ⟨n, hn, hcov⟩
    exact ⟨n, collapse1_subset hn, hcov⟩
  · rintro ⟨n, hn, hcov⟩
    obtain ⟨m, hm, h1, h2⟩ := collapse1_container hv n (List.mem_dedup.mpr hn)
    refine ⟨m, hm, ?_, ?_⟩
    · exact le_trans h1 hcov.1
    · exact le_trans hcov.2 h2

instance : IsTotal Net netLe := ⟨fun a b => by unfold netLe; omega⟩

instance : IsTrans Net netLe := ⟨fun a b c hab hbc => by unfold netLe at *; omega⟩

theorem memUnion_congr {l₁ l₂ : List Net} (h : ∀ n, n ∈ l₁ ↔ n ∈ l₂) :
    ∀ a, memUnion l₁ a ↔ memUnion l₂ a := by
  intro a
  unfold memUnion
  constructor
  · rintro ⟨n, hn, hc⟩
    exact ⟨n, (h n).mp hn, hc⟩
  · rintro ⟨n, hn, hc⟩
    exact ⟨n, (h n).mpr hn, hc⟩

/-! ### The aggregate characterization -/

/-- Characterization of a correct aggregation result for family `v` and
covered address set `S`: strictly sorted by base address, well formed,
covering exactly `S`, and every block maximal (its parent sticks out of
`S`). -/
structure AggSpec (v : Nat) (S : Nat → Prop) (L : List Net) : Prop where
  sorted : L.Pairwise (fun a b => a.addr < b.addr)
  valid : ∀ n ∈ L, n.Valid ∧ n.version = v
  cover : ∀ a, memUnion L a ↔ S a
  maximal : ∀ n ∈ L, n.plen ≠ 0 → ¬ ∀ x, n.parent.covers x → S x

theorem memUnion_flatten (L : List (List Net)) (a : Nat) :
    memUnion L.flatten a ↔ ∃ l ∈ L, memUnion l a := by
  unfold memUnion
  constructor
  · rintro ⟨n, hn, hc⟩
    obtain ⟨l, hl, hnl⟩ := List.mem_flatten.mp hn
    exact ⟨l, hl, n, hnl, hc⟩
  · rintro ⟨l, hl, n, hnl, hc⟩
    exact ⟨n, List.mem_flatten.mpr ⟨l, hl, hnl⟩, hc⟩

theorem ivMem_map_toIvl (l : List Net) (a : Nat) :
    ivMem (l.map fun n => (n.addr, n.last)) a ↔ memUnion l a := by
  unfold ivMem memUnion Net.covers
  constructor
  · rintro ⟨p, hp, h1, h2⟩
    obtain ⟨n, hn, rfl⟩ := List.mem_map.mp hp
    exact ⟨n, hn, h1, h2⟩
  · rintro ⟨n, hn, h1, h2⟩
    exact ⟨(n.addr, n.last), List.mem_map.mpr ⟨n, hn, rfl⟩, h1, h2⟩

theorem collapse_addresses_spec {v : Nat} {nets : List Net}
    (hv : ∀ n ∈ nets, n.Valid ∧ n.version = v) :
    AggSpec v (memUnion nets) (collapse_addresses v nets) := by
  have hw : famWidth v = famWidth v := rfl
  set w := famWidth v with hwdef
  set kept := List.insertionSort netLe (collapse1 nets) with hkept
  set ivls := sweep (kept.map fun n => (n.addr, n.last)) with hivls
  have hout : collapse_addresses v nets =
      (ivls.map fun p => packIv v w p.1 p.2).flatten := rfl
  -- facts about kept
  have hkeptmem : ∀ n, n ∈ kept ↔ n ∈ collapse1 nets := by
    intro n
    rw [hkept]
    exact (List.perm_insertionSort netLe (collapse1 nets)).mem_iff
  have hkeptv : ∀ n ∈ kept, n.Valid ∧ n.version = v := by
    intro n hn
    exact hv n (collapse1_subset ((hkeptmem n).mp hn))
  have hkeptcover : ∀ a, memUnion kept a ↔ memUnion nets a := by
    intro a
    rw [memUnion_congr hkeptmem a, collapse1_cover hv a]
  have hkeptsorted : List.Sorted netLe kept := List.sorted_insertionSort netLe _
  -- facts about the mapped intervals
  have hmapwf : ∀ p ∈ kept.map fun n => (n.addr, n.last), p.1 ≤ p.2 := by
    rintro p hp
    obtain ⟨n, hn, rfl⟩ := List.mem_map.mp hp
    have := n.size_pos
    show n.addr ≤ n.last
    unfold Net.last
    omega
  have hmapbound : ∀ p ∈ kept.map fun n => (n.addr, n.last), p.2 < 2 ^ w := by
    rintro p hp
    obtain ⟨n, hn, rfl⟩ := List.mem_map.mp hp
    obtain ⟨⟨_, h2, _⟩, hver⟩ := hkeptv n hn
    have := n.size_pos
    show n.last < 2 ^ w
    unfold Net.last
    rw [hwdef, ← hver]
    omega
  have hmapsorted : (kept.map fun n => (n.addr, n.last)).Pairwise fun p q => p.1 ≤ q.1 := by
    rw [List.pairwise_map]
    refine hkeptsorted.imp ?_
    intro a b hab
    unfold netLe at hab
    show a.addr ≤ b.addr
    omega
  -- facts about the merged intervals
  have hivwf : ∀ p ∈ ivls, p.1 ≤ p.2 := sweep_wf _ hmapwf
  have hivbound : ∀ p ∈ ivls, p.2 < 2 ^ w := sweep_bound _ _ hmapbound
  have hivgap : ivls.Pairwise fun p q => p.2 + 2 ≤ q.1 := sweep_gap _ hmapsorted
  have hivcover : ∀ a, ivMem ivls a ↔ memUnion nets a := by
    intro a
    rw [hivls, sweep_cover _ hmapwf hmapsorted a, ivMem_map_toIvl, hkeptcover]
  -- the packers
  have hadq : ∀ s e : Nat, e + 1 ≤ s + (e + 1 - s) := by intro s e; omega
  have hpackprops : ∀ p ∈ ivls, ∀ b ∈ packIv v w p.1 p.2,
      b.version = v ∧ b.Valid ∧ p.1 ≤ b.addr ∧ b.addr + b.size ≤ p.2 + 1 := by
    intro p hp b hb
    exact packGo_props hw _ p.1 p.2 (hadq _ _) (hivbound p hp) b hb
  constructor
  -- sorted
  · rw [hout]
    rw [List.pairwise_flatten]
    constructor
    · intro l' hl'
      obtain ⟨p, hp, rfl⟩ := List.mem_map.mp hl'
      exact packGo_sorted hw _ p.1 p.2 (hadq _ _) (hivbound p hp)
    · rw [List.pairwise_map]
      refine List.Pairwise.imp_of_mem ?_ hivgap
      intro p q hp hq hpq x hx y hy
      have hxp := hpackprops p hp x hx
      have hyq := hpackprops q hq y hy
      have := x.size_pos
      show x.addr < y.addr
      omega
  -- valid
  · rw [hout]
    intro n hn
    obtain ⟨l', hl', hnl⟩ := List.mem_flatten.mp hn
    obtain ⟨p, hp, rfl⟩ := List.mem_map.mp hl'
    have := hpackprops p hp n hnl
    exact ⟨this.2.1, this.1⟩
  -- cover
  · intro a
    rw [hout, memUnion_flatten]
    constructor
    · rintro ⟨l', hl', hml⟩
      obtain ⟨p, hp, rfl⟩ := List.mem_map.mp hl'
      have := (packGo_cover hw _ p.1 p.2 (hadq _ _) (hivbound p hp) a).mp hml
      exact (hivcover a).mp ⟨p, hp, this⟩
    · intro ha
      obtain ⟨p, hp, h1, h2⟩ := (hivcover a).mpr ha
      refine ⟨packIv v w p.1 p.2, List.mem_map.mpr ⟨p, hp, rfl⟩, ?_⟩
      exact (packGo_cover hw _ p.1 p.2 (hadq _ _) (hivbound p hp) a).mpr ⟨h1, h2⟩
  -- maximal
  · rw [hout]
    intro n hn hplen hall
    obtain ⟨l', hl', hnl⟩ := List.mem_flatten.mp hn
    obtain ⟨p, hp, rfl⟩ := List.mem_map.mp hl'
    obtain ⟨hver, hval, hlb, hub⟩ := hpackprops p hp n hnl
    have halignpos : (0 : Nat) < 2 ^ alignOf w p.1 := Nat.pos_pow_of_pos _ (by norm_num)
    have hnot := packGo_maximal hw _ p.1 p.2 p.1 (hadq _ _) (hivbound p hp)
      (Nat.le_refl _) (Or.inl (by omega)) n hnl hplen
    have hpsize := n.parent_size hval hplen
    have hszpos := n.size_pos
    have hpcov := Net.parent_covers hval hplen
    have hpc1 : n.parent.addr ≤ n.addr := by
      have := hpcov n.addr ⟨Nat.le_refl _, by unfold Net.last; omega⟩
      exact this.1
    have hpc2 : n.addr ≤ n.parent.last := by
      have := hpcov n.addr ⟨Nat.le_refl _, by unfold Net.last; omega⟩
      exact this.2
    have hplast : n.parent.last = n.parent.addr + n.parent.size - 1 := rfl
    have hppos : 0 < n.parent.size := n.parent.size_pos
    rw [not_and_or] at hnot
    rcases hnot with h | h
    · -- the parent starts before the interval: the address before the
      -- interval would be covered
      push_neg at h
      have hs1 : 1 ≤ p.1 := by omega
      have hcovs : n.parent.covers (p.1 - 1) := by
        unfold Net.covers
        omega
      have := (hivcover (p.1 - 1)).mpr (hall _ hcovs)
      exact gap_not_left hivwf hivgap hp hs1 this
    · -- the parent sticks out to the right of the interval
      push_neg at h
      have hcovs : n.parent.covers (p.2 + 1) := by
        unfold Net.covers
        omega
      have := (hivcover (p.2 + 1)).mpr (hall _ hcovs)
      exact gap_not_right hivwf hivgap hp this

theorem Net.eq_of_same_interval {m n : Net} (hm : m.Valid) (hn : n.Valid)
    (hver : m.version = n.version) (haddr : m.addr = n.addr) (hsize : m.size = n.size) :
    m = n := by
  have hplen : m.plen = n.plen := by
    unfold Net.size at hsize
    rw [hver] at hsize
    have := Nat.pow_right_injective (le_refl 2) hsize
    have h1 := hm.1
    have h2 := hn.1
    rw [hver] at h1
    omega
  cases m
  cases n
  simp only [Net.mk.injEq]
  simp only at hver haddr hplen
  exact ⟨hver, haddr, hplen⟩

theorem Net.covers_self_addr (n : Net) : n.covers n.addr := by
  have := n.size_pos
  unfold Net.covers Net.last
  omega

theorem AggSpec.subset_of_both {v : Nat} {S : Nat → Prop} {L₁ L₂ : List Net}
    (h₁ : AggSpec v S L₁) (h₂ : AggSpec v S L₂) : ∀ n ∈ L₁, n ∈ L₂ := by
  intro n hn
  obtain ⟨hnv, hnver⟩ := h₁.valid n hn
  have hSn : S n.addr := (h₁.cover n.addr).mp ⟨n, hn, n.covers_self_addr⟩
  obtain ⟨m, hm, hmcov⟩ := (h₂.cover n.addr).mpr hSn
  obtain ⟨hmv, hmver⟩ := h₂.valid m hm
  rcases Nat.lt_trichotomy n.size m.size with hlt | heq | hgt
  · -- n strictly smaller than a covering block of L₂: its parent would fit in S
    exfalso
    have hplen : n.plen ≠ 0 := by
      intro hz
      have : n.size = 2 ^ famWidth n.version := by unfold Net.size; rw [hz, Nat.sub_zero]
      have hle : m.size ≤ 2 ^ famWidth m.version := by
        have := hmv.2.1
        have := m.size_pos
        omega
      rw [hmver, ← hnver] at hle
      omega
    have hnest := Net.parent_nest hnv hmv hplen hlt n.covers_self_addr hmcov
    refine h₁.maximal n hn hplen ?_
    intro x hx
    rw [Net.covers_iff] at hx
    refine (h₂.cover x).mp ⟨m, hm, ?_⟩
    rw [Net.covers_iff]
    omega
  · have hnest := Net.nest hnv hmv (by omega) n.covers_self_addr hmcov
    have : n = m := Net.eq_of_same_interval hnv hmv (by rw [hnver, hmver]) (by omega) heq
    rw [this]
    exact hm
  · -- m strictly smaller: its parent would fit in S
    exfalso
    have hplen : m.plen ≠ 0 := by
      intro hz
      have : m.size = 2 ^ famWidth m.version := by unfold Net.size; rw [hz, Nat.sub_zero]
      have hle : n.size ≤ 2 ^ famWidth n.version := by
        have := hnv.2.1
        have := n.size_pos
        omega
      rw [hnver, ← hmver] at hle
      omega
    have hnest := Net.parent_nest hmv hnv hplen hgt hmcov n.covers_self_addr
    refine h₂.maximal m hm hplen ?_
    intro x hx
    rw [Net.covers_iff] at hx
    refine (h₁.cover x).mp ⟨n, hn, ?_⟩
    rw [Net.covers_iff]
    omega

instance : IsAntisymm Net (fun a b => a.addr < b.addr) :=
  ⟨fun a b hab hba => by omega⟩

theorem aggSpec_unique {v : Nat} {S : Nat → Prop} {L₁ L₂ : List Net}
    (h₁ : AggSpec v S L₁) (h₂ : AggSpec v S L₂) : L₁ = L₂ := by
  have hn₁ : L₁.Nodup := (h₁.sorted.imp fun h => by intro he; subst he; omega)
  have hn₂ : L₂.Nodup := (h₂.sorted.imp fun h => by intro he; subst he; omega)
  have hperm : L₁.Perm L₂ := by
    refine List.perm_of_nodup_nodup_toFinset_eq hn₁ hn₂ ?_
    ext n
    simp only [List.mem_toFinset]
    exact ⟨fun hn => h₁.subset_of_both h₂ n hn, fun hn => h₂.subset_of_both h₁ n hn⟩
  exact List.eq_of_perm_of_sorted hperm h₁.sorted h₂.sorted

theorem aggSpec_disjoint {v : Nat} {S : Nat → Prop} {L : List Net} (h : AggSpec v S L) :
    ∀ m ∈ L, ∀ n ∈ L, m ≠ n → ∀ x, ¬ (m.covers x ∧ n.covers x) := by
  have key : ∀ m ∈ L, ∀ n ∈ L, m.size < n.size → ∀ x, ¬ (m.covers x ∧ n.covers x) := by
    intro m hm n hn hsz x ⟨hxm, hxn⟩
    obtain ⟨hmv, hmver⟩ := h.valid m hm
    obtain ⟨hnv, hnver⟩ := h.valid n hn
    have hplen : m.plen ≠ 0 := by
      intro hz
      have : m.size = 2 ^ famWidth m.version := by unfold Net.size; rw [hz, Nat.sub_zero]
      have hle : n.size ≤ 2 ^ famWidth n.version := by
        have := hnv.2.1
        have := n.size_pos
        omega
      rw [hnver, ← hmver] at hle
      omega
    have hnest := Net.parent_nest hmv hnv hplen hsz hxm hxn
    refine h.maximal m hm hplen ?_
    intro y hy
    rw [Net.covers_iff] at hy
    refine (h.cover y).mp ⟨n, hn, ?_⟩
    rw [Net.covers_iff]
    omega
  intro m hm n hn hne x ⟨hxm, hxn⟩
  obtain ⟨hmv, hmver⟩ := h.valid m hm
  obtain ⟨hnv, hnver⟩ := h.valid n hn
  rcases Nat.lt_trichotomy m.size n.size with hlt | heq | hgt
  · exact key m hm n hn hlt x ⟨hxm, hxn⟩
  · have hnest := Net.nest hmv hnv (by omega) hxm hxn
    exact hne (Net.eq_of_same_interval hmv hnv (by rw [hmver, hnver]) (by omega) heq)
  · exact key n hn m hm hgt x ⟨hxn, hxm⟩

/-- A well-formed block whose base address is covered by a maximal
cover `L` of `S`, and whose addresses all lie in `S`, lies inside one
single block of `L`. -/
theorem aggSpec_absorb {v : Nat} {S : Nat → Prop} {L : List Net} (h : AggSpec v S L)
    {g : Net} (hgv : g.Valid) (hgS : ∀ x, g.covers x → S x) :
    ∃ W ∈ L, ∀ x, g.covers x → W.covers x := by
  obtain ⟨W, hW, hWcov⟩ := (h.cover g.addr).mpr (hgS g.addr g.covers_self_addr)
  obtain ⟨hWv, hWver⟩ := h.valid W hW
  rcases le_or_lt g.size W.size with hle | hlt
  · have hnest := Net.nest hgv hWv hle g.covers_self_addr hWcov
    refine ⟨W, hW, ?_⟩
    intro x hx
    rw [Net.covers_iff] at hx ⊢
    omega
  · exfalso
    by_cases hWp : W.plen = 0
    · -- W is the whole family address space, yet g is strictly larger:
      -- then S would contain the address right past the space
      have hWsize : W.size = 2 ^ famWidth W.version := by
        unfold Net.size
        rw [hWp, Nat.sub_zero]
      have hWaddr : W.addr = 0 := by
        have := hWv.2.1
        have := W.size_pos
        omega
      have hnest := Net.nest hWv hgv (by omega) hWcov g.covers_self_addr
      have hgcov : g.covers (2 ^ famWidth W.version) := by
        rw [Net.covers_iff]
        omega
      obtain ⟨W', hW', hW'cov⟩ := (h.cover _).mpr (hgS _ hgcov)
      obtain ⟨hW'v, hW'ver⟩ := h.valid W' hW'
      have h1 := hW'v.2.1
      have h2 := W'.size_pos
      rw [Net.covers_iff] at hW'cov
      rw [hW'ver, ← hWver] at h1
      omega
    · have hnest := Net.parent_nest hWv hgv hWp hlt hWcov g.covers_self_addr
      refine h.maximal W hW hWp ?_
      intro y hy
      rw [Net.covers_iff] at hy
      refine hgS y ?_
      rw [Net.covers_iff]
      omega

/-- Any list of well-formed blocks covering the same address set as a
maximal cover has at least as many blocks. -/
theorem aggSpec_min_card {v : Nat} {S : Nat → Prop} {L : List Net} (h : AggSpec v S L)
    (G : List Net) (hGv : ∀ g ∈ G, g.Valid) (hGcover : ∀ a, memUnion G a ↔ S a) :
    L.length ≤ G.length := by
  classical
  set f : Net → Net := fun m => (G.find? fun g => decide (g.covers m.addr)).getD ⟨0, 0, 0⟩
    with hf
  have hfind : ∀ m ∈ L, f m ∈ G ∧ (f m).covers m.addr := by
    intro m hm
    have hSm : S m.addr := (h.cover m.addr).mp ⟨m, hm, m.covers_self_addr⟩
    obtain ⟨g, hg, hgcov⟩ := (hGcover m.addr).mpr hSm
    have hsome : (G.find? fun g => decide (g.covers m.addr)).isSome := by
      rw [List.find?_isSome]
      exact ⟨g, hg, by rw [decide_eq_true_eq]; exact hgcov⟩
    obtain ⟨g', hg'⟩ := Option.isSome_iff_exists.mp hsome
    have hmem := List.mem_of_find?_eq_some hg'
    have hprop := List.find?_some hg'
    rw [decide_eq_true_eq] at hprop
    rw [hf]
    simp only [hg', Option.getD_some]
    exact ⟨hmem, hprop⟩
  have hnodup : L.Nodup := (h.sorted.imp fun hlt => by intro he; subst he; omega)
  have hinj : Set.InjOn f L.toFinset := by
    intro m₁ hm₁ m₂ hm₂ hfeq
    rw [Finset.mem_coe, List.mem_toFinset] at hm₁ hm₂
    obtain ⟨hg₁, hcov₁⟩ := hfind m₁ hm₁
    obtain ⟨hg₂, hcov₂⟩ := hfind m₂ hm₂
    set g := f m₁ with hgdef
    rw [← hfeq] at hcov₂
    have hgS : ∀ x, g.covers x → S x := by
      intro x hx
      exact (hGcover x).mp ⟨g, hg₁, hx⟩
    obtain ⟨W, hW, hWabs⟩ := aggSpec_absorb h (hGv g hg₁) hgS
    have h₁ : m₁ = W := by
      by_contra hne
      exact aggSpec_disjoint h m₁ hm₁ W hW hne m₁.addr
        ⟨m₁.covers_self_addr, hWabs _ hcov₁⟩
    have h₂ : m₂ = W := by
      by_contra hne
      exact aggSpec_disjoint h m₂ hm₂ W hW hne m₂.addr
        ⟨m₂.covers_self_addr, hWabs _ hcov₂⟩
    rw [h₁, h₂]
  have hmaps : ∀ m ∈ L.toFinset, f m ∈ G.toFinset := by
    intro m hm
    rw [List.mem_toFinset] at hm ⊢
    exact (hfind m hm).1
  calc L.length = L.toFinset.card := (List.toFinset_card_of_nodup hnodup).symm
  _ ≤ G.toFinset.card := Finset.card_le_card_of_injOn f hmaps hinj
  _ ≤ G.length := List.toFinset_card_le G

/-! ### Well-formedness of parsed networks -/

theorem bind_ok {α β : Type} {e : Except String α} {f : α → Except String β} {b : β}
    (h : (e >>= f) = .ok b) : ∃ a, e = .ok a ∧ f a = .ok b := by
  cases e with
  | error s => simp [Bind.bind, Except.bind] at h
  | ok a => exact ⟨a, rfl, by simpa [Bind.bind, Except.bind] using h⟩

theorem parseOctet_le {cs : List Char} {o : Nat} (h : parseOctet cs = .ok o) : o ≤ 255 := by
  unfold parseOctet at h
  split_ifs at h with h1 h2 h3 h4 h5
  rw [Except.ok.injEq] at h
  omega

theorem v4AddrInt_lt {cs : List Char} {a : Nat} (h : v4AddrInt cs = .ok a) : a < 2 ^ 32 := by
  unfold v4AddrInt at h
  split at h
  · rename_i p1 p2 p3 p4 heq
    obtain ⟨o1, ho1, h⟩ := bind_ok h
    obtain ⟨o2, ho2, h⟩ := bind_ok h
    obtain ⟨o3, ho3, h⟩ := bind_ok h
    obtain ⟨o4, ho4, h⟩ := bind_ok h
    rw [Except.ok.injEq] at h
    have b1 := parseOctet_le ho1
    have b2 := parseOctet_le ho2
    have b3 := parseOctet_le ho3
    have b4 := parseOctet_le ho4
    subst h
    unfold fromChunks
    simp only [List.foldl_cons, List.foldl_nil]
    omega
  · exact absurd h (by simp)

theorem parsePlen_le {w : Nat} {cs : List Char} {p : Nat}
    (h : parsePlen w cs = .ok p) : p ≤ w := by
  unfold parsePlen at h
  split_ifs at h with h1 h2 h3
  rw [Except.ok.injEq] at h
  omega

theorem parseHextet_lt {cs : List Char} {x : Nat} (h : parseHextet cs = .ok x) :
    x < 65536 := by
  unfold parseHextet at h
  split_ifs at h with h1 h2 h3
  rw [Except.ok.injEq] at h
  subst h
  push_neg at h1
  have hall : ∀ ch ∈ cs, (hexDigit? ch).isSome = true := by
    intro ch hch
    exact List.all_eq_true.mp (by exact h1) ch hch
  have key : ∀ (l : List Char) (acc : Nat),
      l.foldl (fun acc ch => acc * 16 + (hexDigit? ch).getD 0) acc <
        (acc + 1) * 16 ^ l.length := by
    intro l
    induction l with
    | nil => intro acc; simp
    | cons ch rest ih =>
      intro acc
      simp only [List.foldl_cons, List.length_cons]
      have hd : (hexDigit? ch).getD 0 < 16 := by
        unfold hexDigit?
        split_ifs with g1 g2 g3
        · have g' : 48 ≤ ch.toNat ∧ ch.toNat ≤ 57 := by
            rw [Char.le_def, Char.le_def] at g1
            exact ⟨g1.1, g1.2⟩
          simp only [Option.getD_some]
          omega
        · have g' : 97 ≤ ch.toNat ∧ ch.toNat ≤ 102 := by
            rw [Char.le_def, Char.le_def] at g2
            exact ⟨g2.1, g2.2⟩
          simp only [Option.getD_some]
          omega
        · have g' : 65 ≤ ch.toNat ∧ ch.toNat ≤ 70 := by
            rw [Char.le_def, Char.le_def] at g3
            exact ⟨g3.1, g3.2⟩
          simp only [Option.getD_some]
          omega
        · simp
      calc rest.foldl (fun acc ch => acc * 16 + (hexDigit? ch).getD 0)
            (acc * 16 + (hexDigit? ch).getD 0) <
          (acc * 16 + (hexDigit? ch).getD 0 + 1) * 16 ^ rest.length := ih _
      _ ≤ ((acc + 1) * 16) * 16 ^ rest.length := by
          have : acc * 16 + (hexDigit? ch).getD 0 + 1 ≤ (acc + 1) * 16 := by omega
          exact Nat.mul_le_mul_right _ this
      _ = (acc + 1) * 16 ^ (rest.length + 1) := by ring
  have hb := key cs 0
  have hlen : (16 : Nat) ^ cs.length ≤ 16 ^ 4 := Nat.pow_le_pow_right (by norm_num) (by omega)
  unfold hexVal
  omega

theorem foldHextets_lt {parts : List (List Char)} {acc r : Nat}
    (h : foldHextets parts acc = .ok r) : r < (acc + 1) * 65536 ^ parts.length := by
  induction parts generalizing acc with
  | nil =>
    unfold foldHextets at h
    rw [Except.ok.injEq] at h
    subst h
    simp only [List.length_nil, pow_zero, Nat.mul_one]
    omega
  | cons p rest ih =>
    unfold foldHextets at h
    obtain ⟨x, hx, h⟩ := bind_ok h
    have hxlt := parseHextet_lt hx
    have := ih h
    calc r < (acc * 65536 + x + 1) * 65536 ^ rest.length := this
    _ ≤ ((acc + 1) * 65536) * 65536 ^ rest.length := by
        have : acc * 65536 + x + 1 ≤ (acc + 1) * 65536 := by omega
        exact Nat.mul_le_mul_right _ this
    _ = (acc + 1) * 65536 ^ (rest.length + 1) := by ring
    _ = (acc + 1) * 65536 ^ (p :: rest).length := by rw [List.length_cons]

theorem v6FromParts_lt {parts : List (List Char)} {a : Nat}
    (h : v6FromParts parts = .ok a) : a < 2 ^ 128 := by
  have h2128 : (2 : Nat) ^ 128 = 65536 ^ 8 := by norm_num
  unfold v6FromParts at h
  dsimp only at h
  split at h
  · simp at h
  · split at h
    · simp at h
    · split at h
      · -- a double colon is present
        obtain ⟨hi, hhi, h⟩ := bind_ok h
        obtain ⟨lo, hlo, h⟩ := bind_ok h
        split at h
        · simp at h
        · rename_i hskip
          obtain ⟨hiVal, hhiVal, h⟩ := bind_ok h
          obtain ⟨loVal, hloVal, h⟩ := bind_ok h
          rw [Except.ok.injEq] at h
          subst h
          push_neg at hskip
          have hhilo : hi + lo ≤ 7 := by omega
          have hbound1 := foldHextets_lt hhiVal
          have hbound2 := foldHextets_lt hloVal
          rw [Nat.one_mul] at hbound1 hbound2
          have hlen1 : (parts.take hi).length ≤ hi := by
            rw [List.length_take]
            omega
          have hlen2 : (parts.drop (parts.length - lo)).length ≤ lo := by
            rw [List.length_drop]
            omega
          have hb1 : hiVal < 65536 ^ hi :=
            lt_of_lt_of_le hbound1 (Nat.pow_le_pow_right (by norm_num) hlen1)
          have hb2 : loVal < 65536 ^ lo :=
            lt_of_lt_of_le hbound2 (Nat.pow_le_pow_right (by norm_num) hlen2)
          have hE : (8 - (hi + lo)) + lo = 8 - hi := by omega
          rw [hE, h2128]
          have hlolehi : 65536 ^ lo ≤ 65536 ^ (8 - hi) :=
            Nat.pow_le_pow_right (by norm_num) (by omega)
          calc hiVal * 65536 ^ (8 - hi) + loVal
              < hiVal * 65536 ^ (8 - hi) + 65536 ^ (8 - hi) := by omega
          _ = (hiVal + 1) * 65536 ^ (8 - hi) := by ring
          _ ≤ 65536 ^ hi * 65536 ^ (8 - hi) := Nat.mul_le_mul_right _ (by omega)
          _ = 65536 ^ (hi + (8 - hi)) := by rw [← pow_add]
          _ = 65536 ^ 8 := by congr 1; omega
      · -- no double colon: exactly eight plain hextets
        split at h
        · simp at h
        · split at h
          · simp at h
          · split at h
            · simp at h
            · rename_i hlen8 _ _
              have := foldHextets_lt h
              rw [Nat.one_mul] at this
              rw [h2128]
              have hle : (65536 : Nat) ^ parts.length ≤ 65536 ^ 8 := by
                apply Nat.pow_le_pow_right (by norm_num)
                omega
              omega

theorem v6AddrInt_lt {cs : List Char} {a : Nat} (h : v6AddrInt cs = .ok a) : a < 2 ^ 128 := by
  unfold v6AddrInt at h
  dsimp only at h
  split at h
  · simp at h
  · split at h
    · split at h
      · split at h
        · exact v6FromParts_lt h
        · simp at h
      · exact v6FromParts_lt h
    · exact v6FromParts_lt h

theorem aligned_addr_bound {w p a : Nat} (hp : p ≤ w) (ha : a < 2 ^ w)
    (hal : a % 2 ^ (w - p) = 0) : a + 2 ^ (w - p) ≤ 2 ^ w := by
  have hdvd : 2 ^ (w - p) ∣ a := Nat.dvd_of_mod_eq_zero hal
  have hdvd2 : 2 ^ (w - p) ∣ 2 ^ w := pow_dvd_pow 2 (by omega)
  by_contra hc
  push_neg at hc
  have hd : 2 ^ (w - p) ∣ 2 ^ w - a := Nat.dvd_sub' hdvd2 hdvd
  have := Nat.le_of_dvd (by omega) hd
  omega

theorem IPv4NetworkOf_ok {cs : List Char} {n : Net} (h : IPv4NetworkOf cs = .ok n) :
    n.version = 4 ∧ n.Valid := by
  unfold IPv4NetworkOf at h
  obtain ⟨ap, hap, h⟩ := bind_ok h
  obtain ⟨addr, haddr, h⟩ := bind_ok h
  obtain ⟨plen, hplen, h⟩ := bind_ok h
  split at h
  · simp at h
  · rename_i hhost
    push_neg at hhost
    rw [Except.ok.injEq] at h
    subst h
    have hpl := parsePlen_le hplen
    have hlt := v4AddrInt_lt haddr
    refine ⟨rfl, ?_, ?_, ?_⟩
    · show plen ≤ famWidth 4
      show plen ≤ 32
      exact hpl
    · show addr + 2 ^ (famWidth 4 - plen) ≤ 2 ^ famWidth 4
      show addr + 2 ^ (32 - plen) ≤ 2 ^ 32
      exact aligned_addr_bound hpl hlt hhost
    · show addr % 2 ^ (famWidth 4 - plen) = 0
      exact hhost

theorem IPv6NetworkOf_ok {cs : List Char} {n : Net} (h : IPv6NetworkOf cs = .ok n) :
    n.version = 6 ∧ n.Valid := by
  unfold IPv6NetworkOf at h
  obtain ⟨ap, hap, h⟩ := bind_ok h
  obtain ⟨addr, haddr, h⟩ := bind_ok h
  obtain ⟨plen, hplen, h⟩ := bind_ok h
  split at h
  · simp at h
  · rename_i hhost
    push_neg at hhost
    rw [Except.ok.injEq] at h
    subst h
    have hpl := parsePlen_le hplen
    have hlt := v6AddrInt_lt haddr
    refine ⟨rfl, ?_, ?_, ?_⟩
    · show plen ≤ famWidth 6
      show plen ≤ 128
      exact hpl
    · show addr + 2 ^ (famWidth 6 - plen) ≤ 2 ^ famWidth 6
      show addr + 2 ^ (128 - plen) ≤ 2 ^ 128
      exact aligned_addr_bound hpl hlt hhost
    · show addr % 2 ^ (famWidth 6 - plen) = 0
      exact hhost

/-- Every network produced by `ip_network` is IPv4 or IPv6 and
well formed: in particular its address is canonical (all host bits
zero), since strict parsing rejects rather than canonicalizes. -/
theorem ip_network_ok {cs : List Char} {n : Net} (h : ip_network cs = .ok n) :
    (n.version = 4 ∨ n.version = 6) ∧ n.Valid := by
  unfold ip_network at h
  split at h
  · rename_i h4
    rw [Except.ok.injEq] at h
    subst h
    obtain ⟨hv, hval⟩ := IPv4NetworkOf_ok h4
    exact ⟨Or.inl hv, hval⟩
  · split at h
    · rename_i h6
      rw [Except.ok.injEq] at h
      subst h
      obtain ⟨hv, hval⟩ := IPv6NetworkOf_ok h6
      exact ⟨Or.inr hv, hval⟩
    · simp at h

/-! ### Printing round trips -/

theorem fromChunks_acc (base : Nat) (l : List Nat) (acc : Nat) :
    l.foldl (fun acc x => acc * base + x) acc = acc * base ^ l.length + fromChunks base l := by
  induction l generalizing acc with
  | nil => simp [fromChunks]
  | cons x xs ih =>
    simp only [List.foldl_cons, List.length_cons]
    rw [ih (acc * base + x)]
    have h2 : fromChunks base (x :: xs) = x * base ^ xs.length + fromChunks base xs := by
      unfold fromChunks
      simp only [List.foldl_cons, Nat.zero_mul, Nat.zero_add]
      exact ih x
    rw [h2]
    ring

theorem fromChunks_replicate_zero (base n : Nat) :
    fromChunks base (List.replicate n 0) = 0 := by
  induction n with
  | zero => rfl
  | succ m ih =>
    unfold fromChunks at *
    simp only [List.replicate_succ, List.foldl_cons, Nat.zero_mul, Nat.zero_add]
    exact ih

theorem parseHextet_natToHex {h : Nat} (hlt : h < 65536) :
    parseHextet (natToHex h) = .ok h := by
  unfold parseHextet
  have hall : (natToHex h).all (fun ch => (hexDigit? ch).isSome) = true := by
    rw [List.all_eq_true]
    exact fun ch hch => natToHex_hex h ch hch
  rw [if_neg (by rw [hall]; simp)]
  have hlen : (natToHex h).length ≤ 4 := natToHex_length (k := 3) (by omega)
  rw [if_neg (by omega)]
  rw [if_neg (natToHex_ne_nil h)]
  rw [hexVal_natToHex]

theorem foldHextets_map {vals : List Nat} (hv : ∀ x ∈ vals, x < 65536) (acc : Nat) :
    foldHextets (vals.map natToHex) acc =
      .ok (vals.foldl (fun acc x => acc * 65536 + x) acc) := by
  induction vals generalizing acc with
  | nil => rfl
  | cons x xs ih =>
    simp only [List.map_cons, List.foldl_cons]
    unfold foldHextets
    rw [parseHextet_natToHex (hv x (by simp))]
    simp only [Bind.bind, Except.bind]
    exact ih (fun y hy => hv y (List.mem_cons_of_mem _ hy)) _

theorem foldHextets_map_zero {vals : List Nat} (hv : ∀ x ∈ vals, x < 65536) :
    foldHextets (vals.map natToHex) 0 = .ok (fromChunks 65536 vals) :=
  foldHextets_map hv 0

theorem getE_append_lt {α : Type} (l₁ l₂ : List α) {i : Nat} (h : i < l₁.length) :
    (l₁ ++ l₂)[i]? = l₁[i]? := by
  rw [List.getElem?_append, if_pos h]

theorem getE_append_ge {α : Type} (l₁ l₂ : List α) {i : Nat} (h : l₁.length ≤ i) :
    (l₁ ++ l₂)[i]? = l₂[i - l₁.length]? := by
  rw [List.getElem?_append, if_neg (by omega)]

theorem bestRunGo_spec :
    ∀ (rest pre : List (List Char)) (cs cl bs bl : Nat),
      cl ≤ pre.length →
      (cl ≠ 0 → cs = pre.length - cl) →
      (∀ j, j < cl → (pre[cs + j]? : Option (List Char)) = some ['0']) →
      (bl = 0 ∨ (bs + bl ≤ pre.length ∧
        ∀ j, j < bl → (pre[bs + j]? : Option (List Char)) = some ['0'])) →
      ((bestRunGo rest pre.length cs cl bs bl).2 = 0 ∨
        ((bestRunGo rest pre.length cs cl bs bl).1 + (bestRunGo rest pre.length cs cl bs bl).2 ≤
            (pre ++ rest).length ∧
          ∀ j, j < (bestRunGo rest pre.length cs cl bs bl).2 →
            ((pre ++ rest)[(bestRunGo rest pre.length cs cl bs bl).1 + j]? :
              Option (List Char)) = some ['0'])) := by
  intro rest
  induction rest with
  | nil =>
    intro pre cs cl bs bl hcl hcs hcur hbest
    simp only [bestRunGo, List.append_nil]
    exact hbest
  | cons p rest' ih =>
    intro pre cs cl bs bl hcl hcs hcur hbest
    have hassoc : pre ++ p :: rest' = (pre ++ [p]) ++ rest' := by simp
    rw [hassoc]
    simp only [bestRunGo]
    have hlen' : (pre ++ [p]).length = pre.length + 1 := by simp
    by_cases hp : p = ['0']
    · rw [if_pos hp]
      have hcs' : cl + 1 ≠ 0 →
          (if cl = 0 then pre.length else cs) = (pre ++ [p]).length - (cl + 1) := by
        intro _
        rw [hlen']
        by_cases hc0 : cl = 0
        · rw [if_pos hc0]
          omega
        · rw [if_neg hc0]
          rw [hcs hc0]
          omega
      have hcur' : ∀ j, j < cl + 1 →
          ((pre ++ [p])[(if cl = 0 then pre.length else cs) + j]? :
            Option (List Char)) = some ['0'] := by
        intro j hj
        by_cases hj' : j < cl
        · have hc0 : cl ≠ 0 := by omega
          rw [if_neg hc0]
          have hlt : cs + j < pre.length := by
            rw [hcs hc0]
            omega
          rw [getE_append_lt _ _ hlt]
          exact hcur j hj'
        · have hj'' : j = cl := by omega
          have hidx : (if cl = 0 then pre.length else cs) + j = pre.length := by
            rw [hj'']
            by_cases hc0 : cl = 0
            · rw [if_pos hc0]
              omega
            · rw [if_neg hc0, hcs hc0]
              omega
          rw [hidx, getE_append_ge _ _ (le_refl _), Nat.sub_self]
          simp [hp]
      split
      · have := ih (pre ++ [p]) (if cl = 0 then pre.length else cs) (cl + 1)
          (if cl = 0 then pre.length else cs) (cl + 1)
          (by rw [hlen']; omega) hcs' hcur'
          (Or.inr ⟨by
            rw [hlen']
            by_cases hc0 : cl = 0
            · rw [if_pos hc0]
              omega
            · rw [if_neg hc0, hcs hc0]
              omega, hcur'⟩)
        rw [hlen'] at this
        exact this
      · have hbest' : bl = 0 ∨ (bs + bl ≤ (pre ++ [p]).length ∧
            ∀ j, j < bl → ((pre ++ [p])[bs + j]? : Option (List Char)) = some ['0']) := by
          rcases hbest with h | ⟨h1, h2⟩
          · exact Or.inl h
          · refine Or.inr ⟨by rw [hlen']; omega, ?_⟩
            intro j hj
            rw [getE_append_lt _ _ (by omega)]
            exact h2 j hj
        have := ih (pre ++ [p]) (if cl = 0 then pre.length else cs) (cl + 1) bs bl
          (by rw [hlen']; omega) hcs' hcur' hbest'
        rw [hlen'] at this
        exact this
    · rw [if_neg hp]
      have hbest' : bl = 0 ∨ (bs + bl ≤ (pre ++ [p]).length ∧
          ∀ j, j < bl → ((pre ++ [p])[bs + j]? : Option (List Char)) = some ['0']) := by
        rcases hbest with h | ⟨h1, h2⟩
        · exact Or.inl h
        · refine Or.inr ⟨by rw [hlen']; omega, ?_⟩
          intro j hj
          rw [getE_append_lt _ _ (by omega)]
          exact h2 j hj
      have := ih (pre ++ [p]) 0 0 bs bl (by omega) (fun hc => absurd rfl hc)
        (fun j hj => absurd hj (by omega)) hbest'
      rw [hlen'] at this
      exact this

theorem bestRun_spec (P : List (List Char)) :
    (bestRun P).2 = 0 ∨ ((bestRun P).1 + (bestRun P).2 ≤ P.length ∧
      ∀ j, j < (bestRun P).2 → (P[(bestRun P).1 + j]? : Option (List Char)) = some ['0']) := by
  have := bestRunGo_spec P [] 0 0 0 0 (by simp) (fun hc => absurd rfl hc)
    (fun j hj => absurd hj (by omega)) (Or.inl rfl)
  simpa [bestRun] using this

theorem v6AddrInt_eq_fromParts {parts : List (List Char)} (hne : parts ≠ [])
    (hnc : ∀ p ∈ parts, ':' ∉ p) (hlen : 3 ≤ parts.length)
    (hlast : ∀ lastPart, parts.getLast? = some lastPart → '.' ∉ lastPart) :
    v6AddrInt (joinC ':' parts) = v6FromParts parts := by
  unfold v6AddrInt
  rw [splitOnC_joinC hne hnc]
  rw [if_neg (by omega)]
  have hl : parts.getLast? = some (parts.getLast hne) := List.getLast?_eq_getLast _ hne
  rw [hl]
  simp only
  rw [if_neg (hlast _ hl)]

theorem natToHex_parts_ne_nil {H : List Nat} : ∀ p ∈ H.map natToHex, p ≠ [] := by
  intro p hp
  obtain ⟨h, _, rfl⟩ := List.mem_map.mp hp
  exact natToHex_ne_nil h

theorem natToHex_parts_no_colon {H : List Nat} : ∀ p ∈ H.map natToHex, ':' ∉ p := by
  intro p hp hc
  obtain ⟨h, _, rfl⟩ := List.mem_map.mp hp
  exact absurd rfl (isHex_ne_sep (natToHex_hex h ':' hc)).1

theorem natToHex_parts_no_dot {H : List Nat} : ∀ p ∈ H.map natToHex, '.' ∉ p := by
  intro p hp hc
  obtain ⟨h, _, rfl⟩ := List.mem_map.mp hp
  exact absurd rfl (isHex_ne_sep (natToHex_hex h '.' hc)).2.2

theorem filter_empty_of_parts {L : List (List Char)} (h : ∀ p ∈ L, p ≠ []) :
    L.filter (fun x => decide (x = [])) = [] := by
  rw [List.filter_eq_nil_iff]
  intro a ha
  simp only [decide_eq_true_eq]
  exact h a ha

theorem findIdx?_empty_none {L : List (List Char)} (h : ∀ p ∈ L, p ≠ []) :
    L.findIdx? (fun x => decide (x = [])) = none := by
  rw [List.findIdx?_eq_none_iff]
  intro a ha
  simp only [decide_eq_false_iff_not]
  exact h a ha

theorem v6FromParts_shape1 {F B : List (List Char)} {rF rB : Nat}
    (hFne : F ≠ []) (hBne : B ≠ [])
    (hFp : ∀ p ∈ F, p ≠ []) (hBp : ∀ p ∈ B, p ≠ [])
    (hFok : foldHextets F 0 = .ok rF) (hBok : foldHextets B 0 = .ok rB)
    (hlen : F.length + B.length ≤ 6) :
    v6FromParts (F ++ [[]] ++ B) = .ok (rF * 65536 ^ (8 - F.length) + rB) := by
  obtain ⟨f0, Ftl, rfl⟩ := List.exists_cons_of_ne_nil hFne
  simp only [List.length_cons] at hlen
  have hBsplit : B.dropLast ++ [B.getLast hBne] = B := List.dropLast_append_getLast hBne
  unfold v6FromParts
  have hlenparts : ((f0 :: Ftl) ++ [[]] ++ B).length = Ftl.length + 2 + B.length := by
    simp only [List.append_assoc, List.length_append, List.length_cons, List.length_singleton,
      List.length_nil]
    omega
  rw [if_neg (by omega)]
  have hmid : (((f0 :: Ftl) ++ [[]] ++ B).drop 1).dropLast = Ftl ++ [[]] ++ B.dropLast := by
    have h1 : ((f0 :: Ftl) ++ [[]] ++ B).drop 1 = Ftl ++ [[]] ++ B := by
      simp [List.cons_append]
    rw [h1]
    conv_lhs => rw [← hBsplit]
    rw [show Ftl ++ [[]] ++ (B.dropLast ++ [B.getLast hBne]) =
      (Ftl ++ [[]] ++ B.dropLast) ++ [B.getLast hBne] by simp]
    exact List.dropLast_concat
  rw [hmid]
  dsimp only
  have hfilter : (Ftl ++ [[]] ++ B.dropLast).filter (fun x => decide (x = [])) = [[]] := by
    rw [List.filter_append, List.filter_append]
    rw [filter_empty_of_parts (fun p hp => hFp p (List.mem_cons_of_mem _ hp))]
    rw [filter_empty_of_parts (fun p hp => hBp p (List.mem_of_mem_dropLast hp))]
    rfl
  rw [hfilter]
  rw [if_neg (by simp)]
  have hfind : (Ftl ++ [[]] ++ B.dropLast).findIdx? (fun x => decide (x = [])) =
      some Ftl.length := by
    rw [show Ftl ++ [[]] ++ B.dropLast = Ftl ++ ([[]] ++ B.dropLast) by simp]
    rw [List.findIdx?_append]
    rw [findIdx?_empty_none (fun p hp => hFp p (List.mem_cons_of_mem _ hp))]
    simp [List.findIdx?_cons]
  rw [hfind]
  simp only
  have hhead : ((f0 :: Ftl) ++ [[]] ++ B).headD [] = f0 := by simp
  rw [hhead]
  rw [if_neg (hFp f0 (by simp))]
  have hlast : ((f0 :: Ftl) ++ [[]] ++ B).getLastD [] = B.getLast hBne := by
    rw [List.getLastD_eq_getLast?]
    conv_lhs => rw [← hBsplit]
    rw [show (f0 :: Ftl) ++ [[]] ++ (B.dropLast ++ [B.getLast hBne]) =
      ((f0 :: Ftl) ++ [[]] ++ B.dropLast) ++ [B.getLast hBne] by simp]
    rw [List.getLast?_concat]
    rfl
  rw [hlast]
  rw [if_neg (hBp _ (List.getLast_mem hBne))]
  simp only [Bind.bind, Except.bind]
  rw [if_neg (by omega)]
  have htake : ((f0 :: Ftl) ++ [[]] ++ B).take (Ftl.length + 1) = f0 :: Ftl := by
    rw [show ((f0 :: Ftl) ++ [[]] ++ B) = (f0 :: Ftl) ++ ([[]] ++ B) by simp]
    rw [show Ftl.length + 1 = (f0 :: Ftl).length by simp]
    exact List.take_left _ _
  have hdroplen : ((f0 :: Ftl) ++ [[]] ++ B).length - (Ftl.length + 2 + B.length -
      (Ftl.length + 1) - 1) = Ftl.length + 2 := by
    rw [hlenparts]
    omega
  have hdrop : ((f0 :: Ftl) ++ [[]] ++ B).drop (Ftl.length + 2) = B := by
    rw [show ((f0 :: Ftl) ++ [[]] ++ B) = ((f0 :: Ftl) ++ [[]]) ++ B by simp]
    rw [show Ftl.length + 2 = ((f0 :: Ftl) ++ [[]]).length by simp]
    exact List.drop_left _ _
  rw [htake]
  have hdroparg : (f0 :: Ftl ++ [[]] ++ B).length -
      ((f0 :: Ftl ++ [[]] ++ B).length - (Ftl.length + 1) - 1) = Ftl.length + 2 := by
    rw [hlenparts]
    omega
  rw [hdroparg, hdrop]
  simp only [hFok, hBok]
  simp only [Except.ok.injEq]
  have hexp : 8 - (Ftl.length + 1 + ((f0 :: Ftl ++ [[]] ++ B).length - (Ftl.length + 1) - 1)) +
      ((f0 :: Ftl ++ [[]] ++ B).length - (Ftl.length + 1) - 1) = 8 - (f0 :: Ftl).length := by
    rw [hlenparts]
    simp only [List.length_cons]
    omega
  rw [hexp]

theorem v6FromParts_shape2 {F : List (List Char)} {rF : Nat}
    (hFne : F ≠ []) (hFp : ∀ p ∈ F, p ≠ [])
    (hFok : foldHextets F 0 = .ok rF) (hlen : F.length ≤ 6) :
    v6FromParts (F ++ [[], []]) = .ok (rF * 65536 ^ (8 - F.length)) := by
  obtain ⟨f0, Ftl, rfl⟩ := List.exists_cons_of_ne_nil hFne
  simp only [List.length_cons] at hlen
  unfold v6FromParts
  have hlenparts : ((f0 :: Ftl) ++ [[], []]).length = Ftl.length + 3 := by
    simp only [List.length_append, List.length_cons, List.length_nil]
  rw [if_neg (by omega)]
  have hmid : (((f0 :: Ftl) ++ [[], []]).drop 1).dropLast = Ftl ++ [[]] := by
    have h1 : ((f0 :: Ftl) ++ [[], []]).drop 1 = Ftl ++ [[], []] := by
      simp [List.cons_append]
    rw [h1]
    rw [show Ftl ++ [[], []] = (Ftl ++ [[]]) ++ [[]] by simp]
    exact List.dropLast_concat
  rw [hmid]
  dsimp only
  have hfilter : (Ftl ++ [[]]).filter (fun x => decide (x = [])) = [[]] := by
    rw [List.filter_append]
    rw [filter_empty_of_parts (fun p hp => hFp p (List.mem_cons_of_mem _ hp))]
    rfl
  rw [hfilter]
  rw [if_neg (by simp)]
  have hfind : (Ftl ++ [[]]).findIdx? (fun x => decide (x = [])) = some Ftl.length := by
    rw [List.findIdx?_append]
    rw [findIdx?_empty_none (fun p hp => hFp p (List.mem_cons_of_mem _ hp))]
    simp [List.findIdx?_cons]
  rw [hfind]
  simp only
  have hhead : ((f0 :: Ftl) ++ [[], []]).headD [] = f0 := by simp
  rw [hhead]
  rw [if_neg (hFp f0 (by simp))]
  have hlast : ((f0 :: Ftl) ++ [[], []]).getLastD [] = [] := by
    rw [List.getLastD_eq_getLast?]
    rw [show (f0 :: Ftl) ++ [[], []] = ((f0 :: Ftl) ++ [[]]) ++ [[]] by simp]
    rw [List.getLast?_concat]
    rfl
  rw [hlast]
  rw [if_pos rfl]
  have hlo0 : ((f0 :: Ftl) ++ [[], []]).length - (Ftl.length + 1) - 1 - 1 = 0 := by
    rw [hlenparts]
    omega
  rw [if_neg (by rw [hlenparts]; omega)]
  simp only [Bind.bind, Except.bind]
  rw [if_neg (by omega)]
  have htake : ((f0 :: Ftl) ++ [[], []]).take (Ftl.length + 1) = f0 :: Ftl := by
    rw [show Ftl.length + 1 = (f0 :: Ftl).length by simp]
    exact List.take_left _ _
  rw [htake]
  have hdroparg : ((f0 :: Ftl) ++ [[], []]).length - 0 = ((f0 :: Ftl) ++ [[], []]).length := by
    omega
  rw [hdroparg, List.drop_length]
  simp only [hFok]
  simp only [show foldHextets ([] : List (List Char)) 0 = Except.ok 0 from rfl]
  have hexp : 8 - (Ftl.length + 1 + 0) + 0 = 8 - (f0 :: Ftl).length := by
    simp only [List.length_cons]
    omega
  rw [hexp, Nat.add_zero]

theorem v6FromParts_shape3 {B : List (List Char)} {rB : Nat}
    (hBne : B ≠ []) (hBp : ∀ p ∈ B, p ≠ [])
    (hBok : foldHextets B 0 = .ok rB) (hlen : B.length ≤ 6) :
    v6FromParts ([[], []] ++ B) = .ok rB := by
  have hBsplit : B.dropLast ++ [B.getLast hBne] = B := List.dropLast_append_getLast hBne
  unfold v6FromParts
  have hlenparts : ([[], []] ++ B).length = B.length + 2 := by
    simp only [List.length_append, List.length_cons, List.length_nil]
    omega
  rw [if_neg (by omega)]
  have hmid : (([[], []] ++ B).drop 1).dropLast = [] :: B.dropLast := by
    have h1 : ([[], []] ++ B).drop 1 = [] :: B := by simp
    rw [h1]
    conv_lhs => rw [← hBsplit]
    rw [show ([] : List Char) :: (B.dropLast ++ [B.getLast hBne]) =
      ([] :: B.dropLast) ++ [B.getLast hBne] by simp]
    exact List.dropLast_concat
  rw [hmid]
  dsimp only
  have hfilter : (([] : List Char) :: B.dropLast).filter (fun x => decide (x = [])) = [[]] := by
    rw [List.filter_cons]
    rw [filter_empty_of_parts (fun p hp => hBp p (List.mem_of_mem_dropLast hp))]
    simp
  rw [hfilter]
  rw [if_neg (by simp)]
  have hfind : (([] : List Char) :: B.dropLast).findIdx? (fun x => decide (x = [])) =
      some 0 := by
    simp [List.findIdx?_cons]
  rw [hfind]
  simp only
  have hhead : ([[], []] ++ B).headD [] = [] := by simp
  rw [hhead]
  rw [if_pos rfl]
  rw [if_neg (by omega)]
  have hlast : ([[], []] ++ B).getLastD [] = B.getLast hBne := by
    rw [List.getLastD_eq_getLast?]
    conv_lhs => rw [← hBsplit]
    rw [show [[], []] ++ (B.dropLast ++ [B.getLast hBne]) =
      ([[], []] ++ B.dropLast) ++ [B.getLast hBne] by simp]
    rw [List.getLast?_concat]
    rfl
  rw [hlast]
  rw [if_neg (hBp _ (List.getLast_mem hBne))]
  simp only [Bind.bind, Except.bind]
  rw [if_neg (by rw [hlenparts]; omega)]
  simp only [List.take_zero]
  simp only [show foldHextets ([] : List (List Char)) 0 = Except.ok 0 from rfl]
  have hdroparg : ([[], []] ++ B).length - (([[], []] ++ B).length - (0 + 1) - 1) = 2 := by
    rw [hlenparts]
    omega
  rw [hdroparg]
  have hdrop : ([[], []] ++ B).drop 2 = B := by simp
  rw [hdrop]
  simp only [hBok]
  simp

theorem v6FromParts_shape4 : v6FromParts [[], [], []] = .ok 0 := by rfl

theorem v6FromParts_full {H : List Nat} (hlen : H.length = 8) (hv : ∀ x ∈ H, x < 65536) :
    v6FromParts (H.map natToHex) = .ok (fromChunks 65536 H) := by
  have hPlen : (H.map natToHex).length = 8 := by rw [List.length_map, hlen]
  have hPne : ∀ p ∈ H.map natToHex, p ≠ [] := natToHex_parts_ne_nil
  unfold v6FromParts
  rw [if_neg (by omega)]
  dsimp only
  have hmidsub : ∀ p ∈ ((H.map natToHex).drop 1).dropLast, p ≠ [] := by
    intro p hp
    exact hPne p (List.mem_of_mem_drop (List.mem_of_mem_dropLast hp))
  rw [filter_empty_of_parts hmidsub]
  rw [if_neg (by simp)]
  rw [findIdx?_empty_none hmidsub]
  simp only
  rw [if_neg (by omega)]
  obtain ⟨p0, Prest, hP⟩ := List.exists_cons_of_ne_nil
    (show H.map natToHex ≠ [] by intro hc; rw [hc] at hPlen; simp at hPlen)
  have hhead : (H.map natToHex).headD [] = p0 := by rw [hP]; rfl
  rw [hhead]
  rw [if_neg (hPne p0 (by rw [hP]; exact List.mem_cons_self _ _))]
  have hne : H.map natToHex ≠ [] := by rw [hP]; simp
  have hlastmem : (H.map natToHex).getLast hne ∈ H.map natToHex := List.getLast_mem hne
  rw [List.getLastD_eq_getLast?, List.getLast?_eq_getLast _ hne]
  simp only [Option.getD_some]
  rw [if_neg (hPne _ hlastmem)]
  exact foldHextets_map_zero hv

theorem mem_right_of_getLast?_append {α : Type} {l l' : List α} {a : α} (hne : l' ≠ [])
    (h : (l ++ l').getLast? = some a) : a ∈ l' := by
  rw [List.getLast?_append] at h
  rcases hx : l'.getLast? with _ | x
  · exact absurd (List.getLast?_eq_none_iff.mp hx) hne
  · rw [hx] at h
    have h2 : some x = some a := h
    rw [← Option.some_injective _ h2]
    exact List.mem_of_getLast?_eq_some hx

theorem v6AddrChars_roundtrip {addr : Nat} (ha : addr < 2 ^ 128) :
    v6AddrInt (v6AddrChars addr) = .ok addr := by
  have hHlen : (toChunks 65536 8 addr).length = 8 := toChunks_length _ _ _
  have hHv : ∀ x ∈ toChunks 65536 8 addr, x < 65536 := toChunks_lt (by norm_num) _ _
  have haddr : fromChunks 65536 (toChunks 65536 8 addr) = addr :=
    fromChunks_toChunks_of_lt (by norm_num) (by norm_num; omega)
  set H := toChunks 65536 8 addr with hHdef
  set P := H.map natToHex with hPdef
  have hPlen : P.length = 8 := by rw [hPdef, List.length_map, hHlen]
  have hPne : ∀ p ∈ P, p ≠ [] := natToHex_parts_ne_nil
  have hPnc : ∀ p ∈ P, ':' ∉ p := natToHex_parts_no_colon
  have hPnd : ∀ p ∈ P, '.' ∉ p := natToHex_parts_no_dot
  have hPnil : P ≠ [] := by
    intro hc
    rw [hc] at hPlen
    simp at hPlen
  show v6AddrInt (joinC ':' (compressHextets P)) = .ok addr
  rcases hbr : bestRun P with ⟨bs, bl⟩
  have hspec := bestRun_spec P
  rw [hbr] at hspec
  simp only at hspec
  by_cases hbl : 1 < bl
  · -- a run of at least two zero hextets is compressed
    rcases hspec with h0 | ⟨hble, hslice⟩
    · omega
    rw [hPlen] at hble
    -- the zero run in the hextet values
    have hZrep : (P.drop bs).take bl = List.replicate bl ['0'] := by
      rw [List.eq_replicate]
      constructor
      · rw [List.length_take, List.length_drop, hPlen]
        omega
      · intro b hb
        obtain ⟨n, hn⟩ := List.mem_iff_getElem?.mp hb
        rw [List.getElem?_take] at hn
        by_cases hnlt : n < bl
        · rw [if_pos hnlt, List.getElem?_drop] at hn
          have hsl := hslice n hnlt
          rw [hsl] at hn
          exact (Option.some_injective _ hn).symm
        · rw [if_neg hnlt] at hn
          simp at hn
    have hHZ : (H.drop bs).take bl = List.replicate bl 0 := by
      rw [List.eq_replicate]
      constructor
      · rw [List.length_take, List.length_drop, hHlen]
        omega
      · intro x hx
        have hmem : natToHex x ∈ (P.drop bs).take bl := by
          rw [hPdef, ← List.map_drop, ← List.map_take]
          exact List.mem_map_of_mem _ hx
        rw [hZrep] at hmem
        exact (natToHex_eq_zero_iff x).mp (List.eq_of_mem_replicate hmem)
    -- the value decomposition
    have hFmap : P.take bs = (H.take bs).map natToHex := by
      rw [hPdef, List.map_take]
    have hBmap : P.drop (bs + bl) = (H.drop (bs + bl)).map natToHex := by
      rw [hPdef, List.map_drop]
    have hFok : foldHextets (P.take bs) 0 = .ok (fromChunks 65536 (H.take bs)) := by
      rw [hFmap]
      exact foldHextets_map_zero (fun x hx => hHv x (List.mem_of_mem_take hx))
    have hBok : foldHextets (P.drop (bs + bl)) 0 =
        .ok (fromChunks 65536 (H.drop (bs + bl))) := by
      rw [hBmap]
      exact foldHextets_map_zero (fun x hx => hHv x (List.mem_of_mem_drop hx))
    have hHsplit : H.take bs ++ ((H.drop bs).take bl ++ H.drop (bs + bl)) = H := by
      have h2 : (H.drop bs).drop bl = H.drop (bs + bl) := List.drop_drop bl bs H
      have h1 := List.take_append_drop bl (H.drop bs)
      rw [h2] at h1
      rw [h1]
      exact List.take_append_drop bs H
    have haddr2 : addr = fromChunks 65536 (H.take bs) * 65536 ^ (8 - bs) +
        fromChunks 65536 (H.drop (bs + bl)) := by
      conv_lhs => rw [← haddr, ← hHsplit]
      rw [fromChunks_append, fromChunks_append, hHZ, fromChunks_replicate_zero]
      have hlen1 : (List.replicate bl (0 : Nat) ++ H.drop (bs + bl)).length = 8 - bs := by
        rw [List.length_append, List.length_replicate, List.length_drop, hHlen]
        omega
      rw [hlen1]
      simp only [Nat.zero_mul, Nat.zero_add]
    have hFsub : ∀ p ∈ P.take bs, p ≠ [] := fun p hp => hPne p (List.mem_of_mem_take hp)
    have hBsub : ∀ p ∈ P.drop (bs + bl), p ≠ [] := fun p hp => hPne p (List.mem_of_mem_drop hp)
    have hFlen : (P.take bs).length = bs := by
      rw [List.length_take, hPlen]
      omega
    have hBlen : (P.drop (bs + bl)).length = 8 - (bs + bl) := by
      rw [List.length_drop, hPlen]
    by_cases hbs8 : bs + bl = 8
    · by_cases hbs0 : bs = 0
      · -- the run covers everything: the address is zero
        have hlen8 : bs + bl = P.length := by rw [hPlen]; omega
        have hcomp : compressHextets P = [[], [], []] := by
          unfold compressHextets
          dsimp only
          rw [hbr]
          simp only
          rw [if_pos hbl, if_pos hbs0, if_pos hlen8, hlen8]
          rw [List.drop_left, hbs0]
          simp
        rw [hcomp]
        rw [v6AddrInt_eq_fromParts (by simp) (by simp) (by simp)
          (by intro lp hl; simp at hl; subst hl; simp)]
        rw [v6FromParts_shape4]
        have : addr = 0 := by
          rw [haddr2, hbs0]
          simp only [List.take_zero]
          rw [show 0 + bl = 8 by omega]
          rw [show H.drop 8 = [] from List.drop_eq_nil_of_le (by omega)]
          simp [fromChunks]
        rw [this]
      · -- zeros reach the end but not the start
        have hlen8 : bs + bl = P.length := by rw [hPlen]; omega
        have hcomp : compressHextets P = P.take bs ++ [[], []] := by
          unfold compressHextets
          dsimp only
          rw [hbr]
          simp only
          rw [if_pos hbl, if_neg hbs0, if_pos hlen8, hlen8]
          rw [List.drop_left]
          rw [List.take_append_of_le_length (by rw [← hlen8]; omega)]
          simp
        rw [hcomp]
        have hFne : P.take bs ≠ [] := by
          intro hc
          rw [hc] at hFlen
          simp at hFlen
          omega
        rw [v6AddrInt_eq_fromParts
          (by intro hc; simp at hc)
          (by
            intro p hp
            rcases List.mem_append.mp hp with h | h
            · exact hPnc p (List.mem_of_mem_take h)
            · simp at h
              rcases h with rfl | rfl <;> simp)
          (by
            rw [List.length_append, hFlen]
            simp only [List.length_cons, List.length_nil]
            omega)
          (by
            intro lp hl
            rw [show P.take bs ++ ([[], []] : List (List Char)) =
              (P.take bs ++ [[]]) ++ [[]] by simp] at hl
            rw [List.getLast?_concat] at hl
            rw [← Option.some_injective _ hl]
            simp)]
        rw [v6FromParts_shape2 hFne hFsub hFok (by rw [hFlen]; omega)]
        rw [hFlen]
        rw [haddr2]
        rw [show H.drop (bs + bl) = [] from List.drop_eq_nil_of_le (by rw [hHlen]; omega)]
        simp [fromChunks]
    · by_cases hbs0 : bs = 0
      · -- zeros start at the very beginning
        have hlen8 : ¬ bs + bl = P.length := by rw [hPlen]; omega
        have hcomp : compressHextets P = [[], []] ++ P.drop (bs + bl) := by
          unfold compressHextets
          dsimp only
          rw [hbr]
          simp only
          rw [if_pos hbl, if_pos hbs0, if_neg hlen8, hbs0]
          simp
        rw [hcomp]
        have hBne : P.drop (bs + bl) ≠ [] := by
          intro hc
          rw [hc] at hBlen
          simp at hBlen
          omega
        rw [v6AddrInt_eq_fromParts
          (by simp)
          (by
            intro p hp
            rcases List.mem_append.mp hp with h | h
            · simp at h
              rcases h with rfl | rfl <;> simp
            · exact hPnc p (List.mem_of_mem_drop h))
          (by
            rw [List.length_append, hBlen]
            simp only [List.length_cons, List.length_nil]
            omega)
          (by
            intro lp hl
            exact hPnd _ (List.mem_of_mem_drop (mem_right_of_getLast?_append hBne hl)))]
        rw [v6FromParts_shape3 hBne hBsub hBok (by rw [hBlen]; omega)]
        rw [haddr2, hbs0]
        simp only [List.take_zero]
        simp [fromChunks]
      · -- an interior run of zeros
        have hlen8 : ¬ bs + bl = P.length := by rw [hPlen]; omega
        have hcomp : compressHextets P = P.take bs ++ [[]] ++ P.drop (bs + bl) := by
          unfold compressHextets
          dsimp only
          rw [hbr]
          simp only
          rw [if_pos hbl, if_neg hbs0, if_neg hlen8]
        rw [hcomp]
        have hFne : P.take bs ≠ [] := by
          intro hc
          rw [hc] at hFlen
          simp at hFlen
          omega
        have hBne : P.drop (bs + bl) ≠ [] := by
          intro hc
          rw [hc] at hBlen
          simp at hBlen
          omega
        rw [v6AddrInt_eq_fromParts
          (by simp [hFne])
          (by
            intro p hp
            rcases List.mem_append.mp hp with h | h
            · rcases List.mem_append.mp h with h2 | h2
              · exact hPnc p (List.mem_of_mem_take h2)
              · simp at h2
                rw [h2]
                simp
            · exact hPnc p (List.mem_of_mem_drop h))
          (by
            rw [List.length_append, List.length_append, hFlen, hBlen]
            simp only [List.length_cons, List.length_nil]
            omega)
          (by
            intro lp hl
            exact hPnd _ (List.mem_of_mem_drop (mem_right_of_getLast?_append hBne hl)))]
        rw [v6FromParts_shape1 hFne hBne hFsub hBsub hFok hBok (by rw [hFlen, hBlen]; omega)]
        rw [hFlen, ← haddr2]
  · -- no run to compress: the plain eight-hextet form
    have hcomp : compressHextets P = P := by
      unfold compressHextets
      dsimp only
      rw [hbr]
      simp only
      rw [if_neg hbl]
    rw [hcomp]
    rw [v6AddrInt_eq_fromParts hPnil hPnc (by omega)
      (by
        intro lp hl
        rw [List.getLast?_eq_getLast _ hPnil] at hl
        rw [← Option.some_injective _ hl]
        exact hPnd _ (List.getLast_mem hPnil))]
    rw [hPdef]
    rw [v6FromParts_full hHlen hHv, haddr]

theorem mem_joinC {c ch : Char} {parts : List (List Char)} (h : ch ∈ joinC c parts) :
    ch = c ∨ ∃ p ∈ parts, ch ∈ p := by
  induction parts with
  | nil => simp [joinC] at h
  | cons p ps ih =>
    match ps with
    | [] =>
      simp only [joinC] at h
      exact Or.inr ⟨p, by simp, h⟩
    | q :: qs =>
      simp only [joinC] at h
      rcases List.mem_append.mp h with h1 | h1
      · exact Or.inr ⟨p, by simp, h1⟩
      · rcases List.mem_cons.mp h1 with h2 | h2
        · exact Or.inl h2
        · rcases ih h2 with h3 | ⟨r, hr, hchr⟩
          · exact Or.inl h3
          · exact Or.inr ⟨r, List.mem_cons_of_mem _ hr, hchr⟩

theorem not_mem_natToDec {ch : Char} (n : Nat) (h : ch.isDigit = false) :
    ch ∉ natToDec n := by
  intro hc
  rw [natToDec_digits n ch hc] at h
  exact Bool.noConfusion h

theorem mem_v4AddrChars {addr : Nat} {ch : Char} (h : ch ∈ v4AddrChars addr) :
    ch = '.' ∨ ch.isDigit = true := by
  unfold v4AddrChars at h
  rcases mem_joinC h with h1 | ⟨p, hp, hchp⟩
  · exact Or.inl h1
  · rcases List.mem_map.mp hp with ⟨x, _, rfl⟩
    exact Or.inr (natToDec_digits x ch hchp)

theorem v4AddrChars_no_slash {addr : Nat} : '/' ∉ v4AddrChars addr := by
  intro hc
  rcases mem_v4AddrChars hc with h | h
  · exact absurd h (by decide)
  · exact absurd h (by decide)

theorem mem_compressHextets {P : List (List Char)} {p : List Char}
    (h : p ∈ compressHextets P) : p ∈ P ∨ p = [] := by
  unfold compressHextets at h
  dsimp only at h
  by_cases h1 : 1 < (bestRun P).2
  · rw [if_pos h1] at h
    have hx : ∀ q ∈ (if (bestRun P).1 + (bestRun P).2 = P.length then P ++ [[]] else P),
        q ∈ P ∨ q = [] := by
      intro q hq
      split at hq
      · rcases List.mem_append.mp hq with h2 | h2
        · exact Or.inl h2
        · simp at h2
          exact Or.inr h2
      · exact Or.inl hq
    by_cases h2 : (bestRun P).1 = 0
    · rw [if_pos h2] at h
      rcases List.mem_cons.mp h with h3 | h3
      · exact Or.inr h3
      · rcases List.mem_append.mp h3 with h4 | h4
        · rcases List.mem_append.mp h4 with h5 | h5
          · exact hx _ (List.mem_of_mem_take h5)
          · simp at h5
            exact Or.inr h5
        · exact hx _ (List.mem_of_mem_drop h4)
    · rw [if_neg h2] at h
      rcases List.mem_append.mp h with h4 | h4
      · rcases List.mem_append.mp h4 with h5 | h5
        · exact hx _ (List.mem_of_mem_take h5)
        · simp at h5
          exact Or.inr h5
      · exact hx _ (List.mem_of_mem_drop h4)
  · rw [if_neg h1] at h
    exact Or.inl h

theorem mem_v6AddrChars {addr : Nat} {ch : Char} (h : ch ∈ v6AddrChars addr) :
    ch = ':' ∨ (hexDigit? ch).isSome = true := by
  unfold v6AddrChars at h
  rcases mem_joinC h with h1 | ⟨p, hp, hchp⟩
  · exact Or.inl h1
  · rcases mem_compressHextets hp with h2 | h2
    · rcases List.mem_map.mp h2 with ⟨x, _, rfl⟩
      exact Or.inr (natToHex_hex x ch hchp)
    · subst h2
      simp at hchp

theorem v6AddrChars_no_slash {addr : Nat} : '/' ∉ v6AddrChars addr := by
  intro hc
  rcases mem_v6AddrChars hc with h | h
  · exact absurd h (by decide)
  · exact absurd h (by decide)

theorem v6AddrChars_no_dot {addr : Nat} : '.' ∉ v6AddrChars addr := by
  intro hc
  rcases mem_v6AddrChars hc with h | h
  · exact absurd h (by decide)
  · exact absurd h (by decide)

theorem parseOctet_natToDec {o : Nat} (ho : o ≤ 255) :
    parseOctet (natToDec o) = .ok o := by
  have hall : (natToDec o).all (·.isDigit) = true :=
    List.all_eq_true.mpr (fun ch hch => natToDec_digits o ch hch)
  have hlen : (natToDec o).length ≤ 3 := natToDec_length (by omega)
  have hdv : decVal (natToDec o) = o := decVal_natToDec o
  unfold parseOctet
  rw [if_neg (natToDec_ne_nil o)]
  rw [if_neg (by rw [hall]; simp)]
  rw [if_neg (by omega)]
  rw [if_neg ?hlead]
  case hlead =>
    by_cases h0 : o = 0
    · subst h0
      intro hc
      exact hc.1 (by decide)
    · intro hc
      exact natToDecAux_head (Nat.lt_succ_self o) h0 hc.2
  rw [if_neg (by omega), hdv]

theorem v4AddrChars_roundtrip {addr : Nat} (ha : addr < 2 ^ 32) :
    v4AddrInt (v4AddrChars addr) = .ok addr := by
  have hT : toChunks 256 4 addr =
      [addr / 256 / 256 / 256 % 256, addr / 256 / 256 % 256, addr / 256 % 256, addr % 256] := by
    simp [toChunks]
  have haddr' : addr < 256 ^ 4 := by
    have h1 : (256 : Nat) ^ 4 = 2 ^ 32 := by norm_num
    rw [h1]
    exact ha
  have hC := @fromChunks_toChunks_of_lt 256 4 addr (by norm_num) haddr'
  unfold v4AddrChars
  rw [hT]
  simp only [List.map_cons, List.map_nil]
  unfold v4AddrInt
  rw [splitOnC_joinC (by simp)
    (by
      intro p hp
      simp only [List.mem_cons, List.not_mem_nil, or_false] at hp
      rcases hp with rfl | rfl | rfl | rfl <;> exact not_mem_natToDec _ (by decide))]
  simp only [parseOctet_natToDec (show addr / 256 / 256 / 256 % 256 ≤ 255 by omega),
    parseOctet_natToDec (show addr / 256 / 256 % 256 ≤ 255 by omega),
    parseOctet_natToDec (show addr / 256 % 256 ≤ 255 by omega),
    parseOctet_natToDec (show addr % 256 ≤ 255 by omega),
    Bind.bind, Except.bind]
  rw [← hT, hC]

theorem parsePlen_natToDec {w p : Nat} (hp : p ≤ w) :
    parsePlen w (natToDec p) = .ok p := by
  have hall : (natToDec p).all (·.isDigit) = true :=
    List.all_eq_true.mpr (fun ch hch => natToDec_digits p ch hch)
  have hdv : decVal (natToDec p) = p := decVal_natToDec p
  unfold parsePlen
  rw [if_neg (natToDec_ne_nil p)]
  rw [if_neg (by rw [hall]; simp)]
  rw [if_neg (by omega), hdv]

theorem IPv4NetworkOf_netChars {a p : Nat} (ha : a < 2 ^ 32) (hp : p ≤ 32)
    (hmod : a % 2 ^ (32 - p) = 0) :
    IPv4NetworkOf (v4AddrChars a ++ '/' :: natToDec p) = .ok ⟨4, a, p⟩ := by
  have hsplit : splitAddrPlen 32 (v4AddrChars a ++ '/' :: natToDec p) =
      .ok (v4AddrChars a, natToDec p) := by
    unfold splitAddrPlen
    rw [splitOnC_append v4AddrChars_no_slash,
      splitOnC_of_not_mem (not_mem_natToDec p (by decide))]
  unfold IPv4NetworkOf
  simp only [hsplit, v4AddrChars_roundtrip ha, parsePlen_natToDec hp,
    Bind.bind, Except.bind]
  rw [if_neg (not_not_intro hmod)]

theorem IPv6NetworkOf_netChars {a p : Nat} (ha : a < 2 ^ 128) (hp : p ≤ 128)
    (hmod : a % 2 ^ (128 - p) = 0) :
    IPv6NetworkOf (v6AddrChars a ++ '/' :: natToDec p) = .ok ⟨6, a, p⟩ := by
  have hsplit : splitAddrPlen 128 (v6AddrChars a ++ '/' :: natToDec p) =
      .ok (v6AddrChars a, natToDec p) := by
    unfold splitAddrPlen
    rw [splitOnC_append v6AddrChars_no_slash,
      splitOnC_of_not_mem (not_mem_natToDec p (by decide))]
  unfold IPv6NetworkOf
  simp only [hsplit, v6AddrChars_roundtrip ha, parsePlen_natToDec hp,
    Bind.bind, Except.bind]
  rw [if_neg (not_not_intro hmod)]

theorem IPv4NetworkOf_v6chars (a p : Nat) :
    IPv4NetworkOf (v6AddrChars a ++ '/' :: natToDec p) = .error "Expected 4 octets" := by
  have hsplit : splitAddrPlen 32 (v6AddrChars a ++ '/' :: natToDec p) =
      .ok (v6AddrChars a, natToDec p) := by
    unfold splitAddrPlen
    rw [splitOnC_append v6AddrChars_no_slash,
      splitOnC_of_not_mem (not_mem_natToDec p (by decide))]
  have hv4 : v4AddrInt (v6AddrChars a) = .error "Expected 4 octets" := by
    unfold v4AddrInt
    rw [splitOnC_of_not_mem v6AddrChars_no_dot]
  unfold IPv4NetworkOf
  simp only [hsplit, hv4, Bind.bind, Except.bind]

theorem ip_network_netChars {n : Net} (hv : n.Valid)
    (h46 : n.version = 4 ∨ n.version = 6) :
    ip_network (netChars n) = .ok n := by
  obtain ⟨v, a, p⟩ := n
  rcases h46 with h4 | h6
  · simp only at h4
    subst h4
    obtain ⟨hp, hbnd, hmod⟩ := hv
    have hw : famWidth 4 = 32 := rfl
    have hsz : Net.size ⟨4, a, p⟩ = 2 ^ (32 - p) := rfl
    rw [hw] at hp hbnd
    rw [hsz] at hbnd hmod
    dsimp only at hp hbnd hmod
    have ha : a < 2 ^ 32 := by
      have := Nat.one_le_two_pow (n := 32 - p)
      omega
    show ip_network (v4AddrChars a ++ '/' :: natToDec p) = _
    unfold ip_network
    rw [IPv4NetworkOf_netChars ha hp hmod]
  · simp only at h6
    subst h6
    obtain ⟨hp, hbnd, hmod⟩ := hv
    have hw : famWidth 6 = 128 := rfl
    have hsz : Net.size ⟨6, a, p⟩ = 2 ^ (128 - p) := rfl
    rw [hw] at hp hbnd
    rw [hsz] at hbnd hmod
    dsimp only at hp hbnd hmod
    have ha : a < 2 ^ 128 := by
      have := Nat.one_le_two_pow (n := 128 - p)
      omega
    show ip_network (v6AddrChars a ++ '/' :: natToDec p) = _
    unfold ip_network
    rw [IPv4NetworkOf_v6chars a p, IPv6NetworkOf_netChars ha hp hmod]

/-! ### The consolidation pipeline seen at the level of typed networks -/

/-- The typed networks of family `v` that `consolidate_ip_ranges`
extracts from a token list (its per-family `filterMap`). -/
def parsedFam (v : Nat) (l : List String) : List Net :=
  l.filterMap fun ip =>
    match ip_network ip.data with
    | .ok network => if network.version = v then some network else none
    | .error _ => none

/-- Whether a token parses as some network (`ip_network` does not
raise `ValueError` on it). -/
def parses (s : String) : Bool :=
  match ip_network s.data with
  | .ok _ => true
  | .error _ => false

theorem parsedFam_eq_v6 (l : List String) :
    (l.filterMap fun ip =>
      match ip_network ip.data with
      | .ok network => if network.version = 4 then none
        else if network.version = 6 then some network else none
      | .error _ => none) = parsedFam 6 l := by
  unfold parsedFam
  refine List.filterMap_congr (fun s _ => ?_)
  cases h : ip_network s.data with
  | error e => rfl
  | ok n =>
    dsimp only
    by_cases h4 : n.version = 4
    · rw [if_pos h4, if_neg (by omega)]
    · rw [if_neg h4]

theorem consolidate_eq (l : List String) :
    consolidate_ip_ranges l =
      [(collapse_addresses 4 (parsedFam 4 l)).map netString,
       (collapse_addresses 6 (parsedFam 6 l)).map netString] := by
  unfold consolidate_ip_ranges
  dsimp only
  rw [parsedFam_eq_v6 l]
  rfl

theorem parsedFam_valid (v : Nat) (l : List String) :
    ∀ n ∈ parsedFam v l, n.Valid ∧ n.version = v := by
  intro n hn
  rw [parsedFam, List.mem_filterMap] at hn
  obtain ⟨s, hs, hf⟩ := hn
  cases h : ip_network s.data with
  | error e =>
    rw [h] at hf
    simp at hf
  | ok m =>
    rw [h] at hf
    dsimp only at hf
    by_cases hv : m.version = v
    · rw [if_pos hv] at hf
      obtain rfl := Option.some_injective _ hf
      exact ⟨(ip_network_ok h).2, hv⟩
    · rw [if_neg hv] at hf
      simp at hf

theorem mem_parsedFam {v : Nat} {l : List String} {n : Net} :
    n ∈ parsedFam v l ↔ ∃ s ∈ l, ip_network s.data = .ok n ∧ n.version = v := by
  rw [parsedFam, List.mem_filterMap]
  constructor
  · rintro ⟨s, hs, hf⟩
    cases h : ip_network s.data with
    | error e =>
      rw [h] at hf
      simp at hf
    | ok m =>
      rw [h] at hf
      dsimp only at hf
      by_cases hv : m.version = v
      · rw [if_pos hv] at hf
        obtain rfl := Option.some_injective _ hf
        exact ⟨s, hs, h, hv⟩
      · rw [if_neg hv] at hf
        simp at hf
  · rintro ⟨s, hs, h, hv⟩
    refine ⟨s, hs, ?_⟩
    rw [h]
    dsimp only
    rw [if_pos hv]

theorem parsedFam_append (v : Nat) (a b : List String) :
    parsedFam v (a ++ b) = parsedFam v a ++ parsedFam v b :=
  List.filterMap_append _ _ _

theorem aggSpec_congr {v : Nat} {S T : Nat → Prop} {L : List Net}
    (h : AggSpec v S L) (hS : ∀ a, S a ↔ T a) : AggSpec v T L :=
  ⟨h.sorted, h.valid, fun a => (h.cover a).trans (hS a),
   fun n hn hp hc => h.maximal n hn hp (fun x hx => (hS x).mpr (hc x hx))⟩

theorem aggSpec_self {v : Nat} {S : Nat → Prop} {L : List Net} (h : AggSpec v S L) :
    AggSpec v (memUnion L) L :=
  ⟨h.sorted, h.valid, fun _ => Iff.rfl,
   fun n hn hp hc => h.maximal n hn hp (fun x hx => (h.cover x).mp (hc x hx))⟩

theorem collapse_addresses_of_aggSpec {v : Nat} {S : Nat → Prop} {L : List Net}
    (h : AggSpec v S L) : collapse_addresses v L = L :=
  aggSpec_unique (collapse_addresses_spec h.valid) (aggSpec_self h)

theorem ip_network_netString {n : Net} (hv : n.Valid) (h46 : n.version = 4 ∨ n.version = 6) :
    ip_network (netString n).data = .ok n :=
  ip_network_netChars hv h46

theorem parsedFam_map_netString_same {v : Nat} {L : List Net}
    (hL : ∀ n ∈ L, n.Valid ∧ n.version = v) (hv : v = 4 ∨ v = 6) :
    parsedFam v (L.map netString) = L := by
  induction L with
  | nil => rfl
  | cons n ns ih =>
    obtain ⟨hnv, hnver⟩ := hL n (by simp)
    have h1 : ip_network (netString n).data = .ok n :=
      ip_network_netString hnv (by rw [hnver]; exact hv)
    show parsedFam v (netString n :: ns.map netString) = n :: ns
    unfold parsedFam
    rw [List.filterMap_cons]
    simp only [h1]
    rw [if_pos hnver]
    show n :: (ns.map netString).filterMap _ = n :: ns
    have := ih (fun m hm => hL m (List.mem_cons_of_mem _ hm))
    unfold parsedFam at this
    rw [this]

theorem parsedFam_map_netString_other {v v' : Nat} {L : List Net}
    (hL : ∀ n ∈ L, n.Valid ∧ n.version = v') (hv' : v' = 4 ∨ v' = 6) (hne : v' ≠ v) :
    parsedFam v (L.map netString) = [] := by
  unfold parsedFam
  rw [List.filterMap_eq_nil_iff]
  intro s hs
  obtain ⟨n, hn, rfl⟩ := List.mem_map.mp hs
  obtain ⟨hnv, hnver⟩ := hL n hn
  have h1 : ip_network (netString n).data = .ok n :=
    ip_network_netString hnv (by rw [hnver]; exact hv')
  simp only [h1]
  rw [if_neg (by rw [hnver]; exact hne)]

/-- Address-union of the networks denoted by a list of output strings. -/
def outUnion (out : List String) (a : Nat) : Prop :=
  ∃ s ∈ out, ∃ n : Net, ip_network s.data = Except.ok n ∧ n.covers a

theorem outUnion_map_netString {L : List Net}
    (hL : ∀ n ∈ L, n.Valid ∧ (n.version = 4 ∨ n.version = 6)) (a : Nat) :
    outUnion (L.map netString) a ↔ memUnion L a := by
  unfold outUnion memUnion
  constructor
  · rintro ⟨s, hs, n, hparse, hcov⟩
    obtain ⟨m, hm, rfl⟩ := List.mem_map.mp hs
    obtain ⟨hmv, hm46⟩ := hL m hm
    rw [ip_network_netString hmv hm46] at hparse
    obtain rfl := Except.ok.inj hparse
    exact ⟨m, hm, hcov⟩
  · rintro ⟨n, hn, hcov⟩
    obtain ⟨hnv, hn46⟩ := hL n hn
    exact ⟨netString n, List.mem_map_of_mem _ hn, n, ip_network_netString hnv hn46, hcov⟩

/-! ### The claims -/

/-- C1: for every input token list and each address family, the union of the
addresses covered by the CIDR blocks returned by `consolidate_ip_ranges`
equals the union of the addresses covered by the input prefixes of that
family: no address is added and none is dropped. -/
theorem C1_coverage_preserved (l : List String) (a₄ a₆ : Nat) :
    (outUnion ((consolidate_ip_ranges l).getD 0 []) a₄ ↔ memUnion (parsedFam 4 l) a₄) ∧
    (outUnion ((consolidate_ip_ranges l).getD 1 []) a₆ ↔ memUnion (parsedFam 6 l) a₆) := by
  rw [consolidate_eq]
  simp only [List.getD_cons_zero, List.getD_cons_succ]
  have h4 := collapse_addresses_spec (parsedFam_valid 4 l)
  have h6 := collapse_addresses_spec (parsedFam_valid 6 l)
  constructor
  · rw [outUnion_map_netString (fun n hn => ⟨(h4.valid n hn).1, Or.inl (h4.valid n hn).2⟩)]
    exact h4.cover a₄
  · rw [outUnion_map_netString (fun n hn => ⟨(h6.valid n hn).1, Or.inr (h6.valid n hn).2⟩)]
    exact h6.cover a₆

/-- C2: the number of CIDR blocks `consolidate_ip_ranges` returns for a
family is minimal: any list of valid blocks covering the same address set
has at least as many blocks. -/
theorem C2_minimal_block_count (l : List String) (v : Nat) (hv : v = 4 ∨ v = 6)
    (G : List Net) (hGv : ∀ g ∈ G, g.Valid)
    (hGcover : ∀ a, memUnion G a ↔ memUnion (parsedFam v l) a) :
    ((consolidate_ip_ranges l).getD (if v = 4 then 0 else 1) []).length ≤ G.length := by
  rw [consolidate_eq]
  have hmin := aggSpec_min_card (collapse_addresses_spec (parsedFam_valid v l)) G hGv hGcover
  rcases hv with rfl | rfl
  · simpa using hmin
  · simpa using hmin

theorem C2_minimal_block_count_witness :
    ((4 : Nat) = 4 ∨ (4 : Nat) = 6) ∧
    (∀ g ∈ parsedFam 4 ["10.0.0.0/25", "10.0.0.128/25"], g.Valid) ∧
    (∀ a, memUnion (parsedFam 4 ["10.0.0.0/25", "10.0.0.128/25"]) a ↔
      memUnion (parsedFam 4 ["10.0.0.0/25", "10.0.0.128/25"]) a) ∧
    ((consolidate_ip_ranges ["10.0.0.0/25", "10.0.0.128/25"]).getD
        (if (4 : Nat) = 4 then 0 else 1) []).length ≤
      (parsedFam 4 ["10.0.0.0/25", "10.0.0.128/25"]).length :=
  ⟨Or.inl rfl, fun g hg => (parsedFam_valid 4 _ g hg).1, fun _ => Iff.rfl,
   C2_minimal_block_count ["10.0.0.0/25", "10.0.0.128/25"] 4 (Or.inl rfl) _
     (fun g hg => (parsedFam_valid 4 _ g hg).1) (fun _ => Iff.rfl)⟩

/-- C3 (amended): two distinct CIDR blocks in the aggregator's output for
one family never overlap, and no two of them can be replaced by a single
valid CIDR block covering exactly their union; directly adjacent blocks,
however, do occur in the output (see the counterexample). -/
theorem C3_disjoint_and_unmergeable (l : List String) (v : Nat) {m n : Net}
    (hm : m ∈ collapse_addresses v (parsedFam v l))
    (hn : n ∈ collapse_addresses v (parsedFam v l)) (hne : m ≠ n) :
    (∀ x, ¬ (m.covers x ∧ n.covers x)) ∧
    ¬ ∃ g : Net, g.Valid ∧ (∀ x, g.covers x ↔ (m.covers x ∨ n.covers x)) := by
  have h := collapse_addresses_spec (parsedFam_valid v l)
  refine ⟨aggSpec_disjoint h m hm n hn hne, ?_⟩
  rintro ⟨g, hgv, hgcov⟩
  have hgS : ∀ x, g.covers x → memUnion (parsedFam v l) x := by
    intro x hx
    rcases (hgcov x).mp hx with h1 | h1
    · exact (h.cover x).mp ⟨m, hm, h1⟩
    · exact (h.cover x).mp ⟨n, hn, h1⟩
  obtain ⟨W, hW, hWabs⟩ := aggSpec_absorb h hgv hgS
  have hmW : m = W := by
    by_contra hc
    exact aggSpec_disjoint h m hm W hW hc m.addr
      ⟨m.covers_self_addr, hWabs m.addr ((hgcov m.addr).mpr (Or.inl m.covers_self_addr))⟩
  have hnW : n = W := by
    by_contra hc
    exact aggSpec_disjoint h n hn W hW hc n.addr
      ⟨n.covers_self_addr, hWabs n.addr ((hgcov n.addr).mpr (Or.inr n.covers_self_addr))⟩
  exact hne (hmW.trans hnW.symm)

theorem C3_disjoint_and_unmergeable_witness :
    (⟨4, 167772288, 25⟩ : Net) ∈
      collapse_addresses 4 (parsedFam 4 ["10.0.0.128/25", "10.0.1.0/25"]) ∧
    (⟨4, 167772416, 25⟩ : Net) ∈
      collapse_addresses 4 (parsedFam 4 ["10.0.0.128/25", "10.0.1.0/25"]) ∧
    (⟨4, 167772288, 25⟩ : Net) ≠ (⟨4, 167772416, 25⟩ : Net) ∧
    ((∀ x, ¬ ((⟨4, 167772288, 25⟩ : Net).covers x ∧ (⟨4, 167772416, 25⟩ : Net).covers x)) ∧
     ¬ ∃ g : Net, g.Valid ∧
       (∀ x, g.covers x ↔
         ((⟨4, 167772288, 25⟩ : Net).covers x ∨ (⟨4, 167772416, 25⟩ : Net).covers x))) :=
  ⟨by decide, by decide, by decide,
   C3_disjoint_and_unmergeable ["10.0.0.128/25", "10.0.1.0/25"] 4
     (by decide) (by decide) (by decide)⟩

/-- C3 counterexample: on the input tokens 10.0.0.128/25 and 10.0.1.0/25
the aggregator returns both blocks unchanged, and they are mutually
adjacent (the address after the first block's last address is the second
block's base address), refuting the claim that no two output blocks are
adjacent. -/
theorem C3_counterexample :
    consolidate_ip_ranges ["10.0.0.128/25", "10.0.1.0/25"] =
      [["10.0.0.128/25", "10.0.1.0/25"], []] ∧
    (⟨4, 167772288, 25⟩ : Net) ∈
      collapse_addresses 4 (parsedFam 4 ["10.0.0.128/25", "10.0.1.0/25"]) ∧
    (⟨4, 167772416, 25⟩ : Net) ∈
      collapse_addresses 4 (parsedFam 4 ["10.0.0.128/25", "10.0.1.0/25"]) ∧
    Net.last ⟨4, 167772288, 25⟩ + 1 = Net.addr ⟨4, 167772416, 25⟩ := by
  refine ⟨by decide, by decide, by decide, by decide⟩

/-- C4: token lists with the same members (any permutation, with any
duplication) produce identical `consolidate_ip_ranges` output, in both
content and order. -/
theorem C4_order_independent (l₁ l₂ : List String) (h : ∀ s, s ∈ l₁ ↔ s ∈ l₂) :
    consolidate_ip_ranges l₁ = consolidate_ip_ranges l₂ := by
  have key : ∀ v, collapse_addresses v (parsedFam v l₁) =
      collapse_addresses v (parsedFam v l₂) := by
    intro v
    have hmem : ∀ n, n ∈ parsedFam v l₂ ↔ n ∈ parsedFam v l₁ := by
      intro n
      rw [mem_parsedFam, mem_parsedFam]
      constructor
      · rintro ⟨s, hs, hp⟩
        exact ⟨s, (h s).mpr hs, hp⟩
      · rintro ⟨s, hs, hp⟩
        exact ⟨s, (h s).mp hs, hp⟩
    exact aggSpec_unique (collapse_addresses_spec (parsedFam_valid v l₁))
      (aggSpec_congr (collapse_addresses_spec (parsedFam_valid v l₂))
        (memUnion_congr hmem))
  rw [consolidate_eq, consolidate_eq, key 4, key 6]

theorem C4_order_independent_witness :
    (∀ s, s ∈ (["1.2.3.0/24", "10.0.0.0/8"] : List String) ↔
      s ∈ (["10.0.0.0/8", "1.2.3.0/24", "10.0.0.0/8"] : List String)) ∧
    consolidate_ip_ranges ["1.2.3.0/24", "10.0.0.0/8"] =
      consolidate_ip_ranges ["10.0.0.0/8", "1.2.3.0/24", "10.0.0.0/8"] :=
  ⟨fun s => by simp only [List.mem_cons, List.not_mem_nil, or_false]; tauto,
   C4_order_independent _ _
     (fun s => by simp only [List.mem_cons, List.not_mem_nil, or_false]; tauto)⟩

/-- C5 (amended): the parser never canonicalizes: every network value it
does return already has all host bits zero, and a token whose host bits
are set is rejected with an error rather than masked (see the
counterexample). -/
theorem C5_parsed_networks_canonical {cs : List Char} {n : Net}
    (h : ip_network cs = .ok n) :
    n.addr % 2 ^ (famWidth n.version - n.plen) = 0 :=
  (ip_network_ok h).2.2.2

theorem C5_parsed_networks_canonical_witness :
    ip_network ("10.0.0.0/24" : String).data = .ok ⟨4, 167772160, 24⟩ ∧
    Net.addr ⟨4, 167772160, 24⟩ %
      2 ^ (famWidth (Net.version ⟨4, 167772160, 24⟩) - Net.plen ⟨4, 167772160, 24⟩) = 0 :=
  ⟨rfl, @C5_parsed_networks_canonical ("10.0.0.0/24" : String).data
    ⟨4, 167772160, 24⟩ rfl⟩

/-- C5 counterexample: the token 10.0.0.1/24 has non-zero host bits; the
parser does not accept-and-mask it to 10.0.0.0/24 but rejects it with an
error (Python's strict=True `ValueError`), and `consolidate_ip_ranges`
consequently drops it. -/
theorem C5_counterexample :
    ip_network ("10.0.0.1/24" : String).data =
      .error "does not appear to be an IPv4 or IPv6 network" ∧
    consolidate_ip_ranges ["10.0.0.1/24"] = [[], []] :=
  ⟨rfl, by decide⟩

/-- C6: a token on which `ip_network` raises is skipped: removing it from
the batch leaves the result of `consolidate_ip_ranges` unchanged, so every
remaining valid token is still parsed and aggregated and the run does not
abort. -/
theorem C6_bad_token_skipped (pre post : List String) (bad : String) (e : String)
    (hbad : ip_network bad.data = .error e) :
    consolidate_ip_ranges (pre ++ bad :: post) = consolidate_ip_ranges (pre ++ post) := by
  have key : ∀ v, parsedFam v (pre ++ bad :: post) = parsedFam v (pre ++ post) := by
    intro v
    unfold parsedFam
    rw [List.filterMap_append, List.filterMap_append, List.filterMap_cons]
    simp only [hbad]
  rw [consolidate_eq, consolidate_eq, key 4, key 6]

theorem C6_bad_token_skipped_witness :
    ip_network ("not-an-ip" : String).data =
      .error "does not appear to be an IPv4 or IPv6 network" ∧
    consolidate_ip_ranges (["1.2.3.0/24"] ++ "not-an-ip" :: ["1.2.2.0/24"]) =
      consolidate_ip_ranges (["1.2.3.0/24"] ++ ["1.2.2.0/24"]) ∧
    consolidate_ip_ranges (["1.2.3.0/24"] ++ "not-an-ip" :: ["1.2.2.0/24"]) =
      [["1.2.2.0/23"], []] :=
  ⟨rfl, C6_bad_token_skipped ["1.2.3.0/24"] ["1.2.2.0/24"] "not-an-ip" _ rfl, by decide⟩

/-- C7: aggregation is idempotent: feeding the output strings of
`consolidate_ip_ranges` back into it returns exactly the same two lists. -/
theorem C7_idempotent (l out4 out6 : List String)
    (h : consolidate_ip_ranges l = [out4, out6]) :
    consolidate_ip_ranges (out4 ++ out6) = [out4, out6] := by
  rw [consolidate_eq] at h
  injection h with h4 h'
  injection h' with h6 _
  have hA4 := collapse_addresses_spec (parsedFam_valid 4 l)
  have hA6 := collapse_addresses_spec (parsedFam_valid 6 l)
  have hp4 : parsedFam 4 (out4 ++ out6) = collapse_addresses 4 (parsedFam 4 l) := by
    rw [← h4, ← h6, parsedFam_append,
      parsedFam_map_netString_same hA4.valid (Or.inl rfl),
      parsedFam_map_netString_other hA6.valid (Or.inr rfl) (by omega), List.append_nil]
  have hp6 : parsedFam 6 (out4 ++ out6) = collapse_addresses 6 (parsedFam 6 l) := by
    rw [← h4, ← h6, parsedFam_append,
      parsedFam_map_netString_other hA4.valid (Or.inl rfl) (by omega),
      parsedFam_map_netString_same hA6.valid (Or.inr rfl), List.nil_append]
  rw [consolidate_eq, hp4, hp6, collapse_addresses_of_aggSpec hA4,
    collapse_addresses_of_aggSpec hA6, h4, h6]

theorem C7_idempotent_witness :
    consolidate_ip_ranges ["1.2.3.0/24", "1.2.2.0/24"] = [["1.2.2.0/23"], []] ∧
    consolidate_ip_ranges (["1.2.2.0/23"] ++ []) = [["1.2.2.0/23"], []] :=
  ⟨by decide, C7_idempotent ["1.2.3.0/24", "1.2.2.0/24"] ["1.2.2.0/23"] [] (by decide)⟩

/-- C8: each per-family output of `consolidate_ip_ranges` is the image of a
block list sorted strictly by numeric base address ascending, and the
output is deterministic: it is a function of the input list alone. -/
theorem C8_sorted_and_deterministic (l : List String) (v i : Nat)
    (hvi : (v = 4 ∧ i = 0) ∨ (v = 6 ∧ i = 1)) :
    (consolidate_ip_ranges l).getD i [] =
      (collapse_addresses v (parsedFam v l)).map netString ∧
    (collapse_addresses v (parsedFam v l)).Pairwise (fun a b => a.addr < b.addr) ∧
    (∀ l₂, l = l₂ → consolidate_ip_ranges l = consolidate_ip_ranges l₂) := by
  refine ⟨?_, (collapse_addresses_spec (parsedFam_valid v l)).sorted,
    fun l₂ hl => by rw [hl]⟩
  rw [consolidate_eq]
  rcases hvi with ⟨rfl, rfl⟩ | ⟨rfl, rfl⟩ <;> rfl

theorem C8_sorted_and_deterministic_witness :
    (((4 : Nat) = 4 ∧ (0 : Nat) = 0) ∨ ((4 : Nat) = 6 ∧ (0 : Nat) = 1)) ∧
    ((consolidate_ip_ranges ["10.0.0.0/8", "1.2.3.0/24"]).getD 0 [] =
      (collapse_addresses 4 (parsedFam 4 ["10.0.0.0/8", "1.2.3.0/24"])).map netString ∧
     (collapse_addresses 4 (parsedFam 4 ["10.0.0.0/8", "1.2.3.0/24"])).Pairwise
       (fun a b => a.addr < b.addr) ∧
     (∀ l₂, ["10.0.0.0/8", "1.2.3.0/24"] = l₂ →
       consolidate_ip_ranges ["10.0.0.0/8", "1.2.3.0/24"] = consolidate_ip_ranges l₂)) :=
  ⟨Or.inl ⟨rfl, rfl⟩,
   C8_sorted_and_deterministic ["10.0.0.0/8", "1.2.3.0/24"] 4 0 (Or.inl ⟨rfl, rfl⟩)⟩

/-- C9: `consolidate_ip_ranges` is a total function of an arbitrary string
list: it is defined for every input (it is a Lean function), unparseable
tokens are simply skipped (filtering them away changes nothing), and a
well-formed two-list result is always returned. -/
theorem C9_total_over_strings (l : List String) :
    consolidate_ip_ranges l = consolidate_ip_ranges (l.filter parses) ∧
    (consolidate_ip_ranges l).length = 2 := by
  constructor
  · have key : ∀ v, parsedFam v (l.filter parses) = parsedFam v l := by
      intro v
      induction l with
      | nil => rfl
      | cons s rest ih =>
        by_cases hp : parses s = true
        · rw [List.filter_cons_of_pos hp]
          show parsedFam v (s :: rest.filter parses) = parsedFam v (s :: rest)
          unfold parsedFam at ih ⊢
          rw [List.filterMap_cons, List.filterMap_cons, ih]
        · rw [List.filter_cons_of_neg (by simpa using hp)]
          have hnone : (match ip_network s.data with
              | Except.ok network => if network.version = v then some network else none
              | Except.error _ => none) = (none : Option Net) := by
            unfold parses at hp
            cases hq : ip_network s.data with
            | ok m =>
              rw [hq] at hp
              simp at hp
            | error e => rfl
          unfold parsedFam at ih ⊢
          rw [List.filterMap_cons]
          simp only [hnone]
          exact ih
    rw [consolidate_eq, consolidate_eq, key 4, key 6]
  · rw [consolidate_eq]
    rfl

theorem C9_total_over_strings_witness :
    consolidate_ip_ranges ["garbage", "1.2.3.0/24", "999.1.1.1"] =
      consolidate_ip_ranges
        ((["garbage", "1.2.3.0/24", "999.1.1.1"] : List String).filter parses) ∧
    (consolidate_ip_ranges ["garbage", "1.2.3.0/24", "999.1.1.1"]).length = 2 :=
  C9_total_over_strings ["garbage", "1.2.3.0/24", "999.1.1.1"]

/-- C10: `consolidate_ip_ranges` takes a mixed-family token list in one
call and always returns exactly the two-element list of an IPv4 part and
an IPv6 part; every output string of the first part denotes an IPv4
network and every output string of the second an IPv6 network, and the
families do not interact: appending tokens of the other family leaves a
part unchanged. -/
theorem C10_two_family_output (l : List String) :
    (consolidate_ip_ranges l).length = 2 ∧
    (∀ s ∈ (consolidate_ip_ranges l).getD 0 [], ∃ n : Net,
      ip_network s.data = Except.ok n ∧ n.version = 4) ∧
    (∀ s ∈ (consolidate_ip_ranges l).getD 1 [], ∃ n : Net,
      ip_network s.data = Except.ok n ∧ n.version = 6) ∧
    (∀ l₆ : List String,
      (∀ s ∈ l₆, ∀ n : Net, ip_network s.data = Except.ok n → n.version = 6) →
      (consolidate_ip_ranges (l ++ l₆)).getD 0 [] = (consolidate_ip_ranges l).getD 0 []) ∧
    (∀ l₄ : List String,
      (∀ s ∈ l₄, ∀ n : Net, ip_network s.data = Except.ok n → n.version = 4) →
      (consolidate_ip_ranges (l ++ l₄)).getD 1 [] = (consolidate_ip_ranges l).getD 1 []) := by
  have hfam : ∀ (v v' : Nat) (ext : List String), v ≠ v' →
      (∀ s ∈ ext, ∀ n : Net, ip_network s.data = Except.ok n → n.version = v') →
      parsedFam v ext = [] := by
    intro v v' ext hne hext
    unfold parsedFam
    rw [List.filterMap_eq_nil_iff]
    intro s hs
    cases hq : ip_network s.data with
    | error e => rfl
    | ok m =>
      dsimp only
      rw [if_neg (by
        have := hext s hs m hq
        omega)]
  refine ⟨?_, ?_, ?_, ?_, ?_⟩
  · rw [consolidate_eq]
    rfl
  · rw [consolidate_eq]
    simp only [List.getD_cons_zero]
    intro s hs
    obtain ⟨n, hn, rfl⟩ := List.mem_map.mp hs
    have hv := (collapse_addresses_spec (parsedFam_valid 4 l)).valid n hn
    exact ⟨n, ip_network_netString hv.1 (Or.inl hv.2), hv.2⟩
  · rw [consolidate_eq]
    simp only [List.getD_cons_succ, List.getD_cons_zero]
    intro s hs
    obtain ⟨n, hn, rfl⟩ := List.mem_map.mp hs
    have hv := (collapse_addresses_spec (parsedFam_valid 6 l)).valid n hn
    exact ⟨n, ip_network_netString hv.1 (Or.inr hv.2), hv.2⟩
  · intro l₆ h₆
    rw [consolidate_eq, consolidate_eq]
    simp only [List.getD_cons_zero]
    rw [parsedFam_append, hfam 4 6 l₆ (by omega) h₆, List.append_nil]
  · intro l₄ h₄
    rw [consolidate_eq, consolidate_eq]
    simp only [List.getD_cons_succ, List.getD_cons_zero]
    rw [parsedFam_append, hfam 6 4 l₄ (by omega) h₄, List.append_nil]

theorem C10_two_family_output_witness :
    (consolidate_ip_ranges ["2001:db8::/48", "10.0.0.0/8"]).length = 2 ∧
    (consolidate_ip_ranges
        (["2001:db8::/48", "10.0.0.0/8"] ++ ["2001:db8:1::/48"])).getD 0 [] =
      (consolidate_ip_ranges ["2001:db8::/48", "10.0.0.0/8"]).getD 0 [] :=
  ⟨(C10_two_family_output ["2001:db8::/48", "10.0.0.0/8"]).1,
   (C10_two_family_output ["2001:db8::/48", "10.0.0.0/8"]).2.2.2.1 ["2001:db8:1::/48"]
     (by
       intro s hs n hn
       simp only [List.mem_cons, List.not_mem_nil, or_false] at hs
       subst hs
       rw [show ip_network ("2001:db8:1::/48" : String).data =
         Except.ok ⟨6, 42540766411283801782723599580828532736, 48⟩ from rfl] at hn
       obtain rfl := Except.ok.inj hn
       rfl)⟩
